/-
Verification of the structured-ASIC placement core against its specification.

The development shallowly embeds the Python sources:
  * `src/greedy_algorithm.py` — site grid, nearest-free-site search, seed+grow placer
  * `src/sa.py` and `src/bonus/sa_with_weights.py` — HPWL costing and simulated annealing
  * `src/eco_genearted.py` — clock-tree sink clustering and per-tile tie-off

Modelling conventions:
  * Python floats are modelled as exact rationals (`ℚ`); integer site coordinates as `ℤ`.
  * Python dicts that are only ever extended are modelled as association lists
    (`List (key × value)`), preserving insertion order, which is Python's
    iteration order.
  * Python sets used purely for membership/insertion (`occupied`, `visited`)
    are modelled as `Finset`.
  * Fallible code paths (`raise`, and crashes on malformed state) are modelled
    with `Option`: `none` is an uncaught exception.
-/
import Mathlib

/-! ## SiteGrid (src/greedy_algorithm.py lines 22-74) -/

/-- Grid geometry: number of sites in x/y and the micron dimensions of one
site.  Bundles the `sites_x, sites_y, site_w, site_h` arguments that
`greedy_algorithm.py` passes around. -/
structure Grid where
  sites_x : ℕ
  sites_y : ℕ
  site_w : ℚ
  site_h : ℚ
deriving DecidableEq

/-- `0 <= nx < sites_x and 0 <= ny < sites_y`: the bounds test applied to every
ring candidate and implicit in the fallback scan. -/
def inBounds (g : Grid) (p : ℤ × ℤ) : Bool :=
  decide (0 ≤ p.1) && decide (p.1 < (g.sites_x : ℤ)) &&
  decide (0 ≤ p.2) && decide (p.2 < (g.sites_y : ℤ))

/-- Chebyshev (square-ring) site distance: the radius of the ring of
`find_nearest_free` on which a site lies. -/
def chebDist (a b : ℤ × ℤ) : ℕ :=
  max (a.1 - b.1).natAbs (a.2 - b.2).natAbs

/-- Square of `math.hypot((nx-start_sx)*site_w, (ny-start_sy)*site_h)`.
Squaring is strictly monotone in the true Euclidean distance, so ordering
candidate sites by `distSq` is the ordering by true micron distance that the
heap in `find_nearest_free` uses. -/
def distSq (g : Grid) (s p : ℤ × ℤ) : ℚ :=
  (((p.1 - s.1 : ℤ) : ℚ) * g.site_w) ^ 2 + (((p.2 - s.2 : ℤ) : ℚ) * g.site_h) ^ 2

/-- Python 3 `round`: round half to even (banker's rounding), used by
`xy_to_site`. -/
def pyRound (q : ℚ) : ℤ :=
  let f := ⌊q⌋
  if q - f < 1/2 then f
  else if 1/2 < q - f then f + 1
  else if Even f then f else f + 1

/-- `xy_to_site(x_um, y_um, site_w, site_h, sites_x, sites_y)`: round the
micron coordinate to the nearest site and clamp into the grid. -/
def xy_to_site (g : Grid) (x_um y_um : ℚ) : ℤ × ℤ :=
  (max 0 (min ((g.sites_x : ℤ) - 1) (pyRound (x_um / g.site_w))),
   max 0 (min ((g.sites_y : ℤ) - 1) (pyRound (y_um / g.site_h))))

/-- `site_to_xy(sx, sy, site_w, site_h)`. -/
def site_to_xy (g : Grid) (p : ℤ × ℤ) : ℚ × ℚ :=
  ((p.1 : ℚ) * g.site_w, (p.2 : ℚ) * g.site_h)

/-- The square ring of Chebyshev radius `r` around `s`, in the order the
Python code appends the points (top+bottom rows for `dx ∈ [-r, r]`, then
left+right columns for `dy ∈ [-r+1, r-1]`). -/
def ringPoints (s : ℤ × ℤ) (r : ℕ) : List (ℤ × ℤ) :=
  ((List.range (2 * r + 1)).flatMap fun i =>
    [(s.1 - r + i, s.2 + r), (s.1 - r + i, s.2 - r)]) ++
  ((List.range (2 * r - 1)).flatMap fun j =>
    [(s.1 + r, s.2 - r + 1 + j), (s.1 - r, s.2 - r + 1 + j)])

/-- Insert into a `le`-sorted list, keeping it sorted. -/
def insertLe {α : Type} (le : α → α → Bool) (a : α) : List α → List α
  | [] => [a]
  | b :: t => if le a b then a :: b :: t else b :: insertLe le a t

/-- Insertion sort.  Models the semantics of popping a Python `heapq` to
exhaustion: elements come out in ascending tuple order. -/
def sortLe {α : Type} (le : α → α → Bool) (l : List α) : List α :=
  l.foldr (insertLe le) []

/-- Python's tuple order on the heap entries `(dist, nx, ny)`.  Equality of
rationals is expressed through two strict comparisons so that the order is
total by construction. -/
def entryLe (a b : ℚ × ℤ × ℤ) : Bool :=
  if a.1 < b.1 then true
  else if b.1 < a.1 then false
  else if a.2.1 < b.2.1 then true
  else if b.2.1 < a.2.1 then false
  else decide (a.2.2 ≤ b.2.2)

/-- The in-bounds, not-yet-visited points of ring `r`: exactly the points the
radius-`r` iteration pushes onto the heap (each ring is duplicate-free, so
testing `visited` before the whole batch equals the source's per-point test,
and every pushed point is also added to `visited`). -/
def ringPts (g : Grid) (visited : Finset (ℤ × ℤ)) (s : ℤ × ℤ) (r : ℕ) :
    List (ℤ × ℤ) :=
  (ringPoints s r).filter fun p => inBounds g p && !(decide (p ∈ visited))

/-- One radius step of `find_nearest_free`: push the ring points with their
Euclidean distances onto the heap and pop until a free site appears.  Popping
a binary heap to exhaustion yields ascending `(dist, nx, ny)` order, so the
result is the first free site of the sorted entry list. -/
def ringStep (occ : Finset (ℤ × ℤ)) (g : Grid) (visited : Finset (ℤ × ℤ))
    (s : ℤ × ℤ) (r : ℕ) : Option (ℤ × ℤ) :=
  let entries := (ringPts g visited s r).map fun p => (distSq g s p, p)
  match (sortLe entryLe entries).find? (fun e => !(decide (e.2 ∈ occ))) with
  | some e => some e.2
  | none => none

/-- The `while radius <= max_radius` loop.  `fuel` is the number of radii left
to try, `max(sites_x, sites_y)` at the top-level call. -/
def ringLoop (occ : Finset (ℤ × ℤ)) (g : Grid) (s : ℤ × ℤ) :
    ℕ → ℕ → Finset (ℤ × ℤ) → Option (ℤ × ℤ)
  | _r, 0, _visited => none
  | r, fuel + 1, visited =>
    match ringStep occ g visited s r with
    | some p => some p
    | none =>
      ringLoop occ g s (r + 1) fuel (visited ∪ (ringPts g visited s r).toFinset)

/-- The final `for sy in range(sites_y): for sx in range(sites_x)` linear
scan. -/
def fallbackScan (occ : Finset (ℤ × ℤ)) (g : Grid) : Option (ℤ × ℤ) :=
  ((List.range g.sites_y).flatMap fun (sy : ℕ) =>
    (List.range g.sites_x).map fun (sx : ℕ) => ((sx : ℤ), (sy : ℤ))).find?
    fun p => !(decide (p ∈ occ))

/-- `find_nearest_free(start_sx, start_sy, occupied, ...)`.  `none` models the
`raise RuntimeError("No free site found")`. -/
def find_nearest_free (s : ℤ × ℤ) (occ : Finset (ℤ × ℤ)) (g : Grid) :
    Option (ℤ × ℤ) :=
  if s ∈ occ then
    match ringLoop occ g s 1 (max g.sites_x g.sites_y) ∅ with
    | some p => some p
    | none => fallbackScan occ g
  else some s

/-! ## NetGraph / costing (src/sa.py lines 22-39, src/bonus/sa_with_weights.py
lines 8-28, src/greedy_algorithm.py lines 76-85) -/

/-- A net member: Yosys net-member entries "may include pins or non-string
entries"; the placer keeps exactly the `isinstance(m, str)` ones, so all
non-string entries collapse to `token`. -/
inductive NetMember where
  | cell (s : String)
  | token
deriving DecidableEq

/-- The string members of a net, in order (`[m for m in members if
isinstance(m, str)]`). -/
def strMembers (ms : List NetMember) : List String :=
  ms.filterMap fun m => match m with
    | .cell s => some s
    | .token => none

/-- A placement: `cell name ↦ site`.  The Python dict value also carries
`site_um` and a provenance tag; only `"site"` is ever read by the costing and
annealing code, so the embedding keeps just the site. -/
abbrev Placement := List (String × (ℤ × ℤ))

/-- The sites of the net members that are strings with a known placement. -/
def placedCoords (placements : Placement) (members : List NetMember) :
    List (ℤ × ℤ) :=
  members.filterMap fun m => match m with
    | .cell s => placements.lookup s
    | .token => none

/-- `max(l) - min(l)` of a coordinate list; `0` on `[]` (unused there). -/
def span (l : List ℤ) : ℤ :=
  match l with
  | [] => 0
  | a :: t => t.foldl max a - t.foldl min a

/-- `total_hpwl(nets, placements)` from `src/sa.py`: sum of x-span + y-span
over each net's placed string members, skipping nets with no placed member. -/
def total_hpwl (nets : List (String × List NetMember)) (placements : Placement) :
    ℚ :=
  nets.foldl
    (fun hpwl n =>
      let coords := placedCoords placements n.2
      match coords with
      | [] => hpwl
      | _ :: _ =>
        hpwl + ((span (coords.map Prod.fst) + span (coords.map Prod.snd) : ℤ) : ℚ))
    0

/-- `total_hpwl(nets, placements, net_weights)` from
`src/bonus/sa_with_weights.py`.  `none` models passing `net_weights=None`; a
lookup miss falls back to weight `1.0`, which also covers Python's falsy test
on an empty dict.  Weight values are modelled as already-numeric (`ℚ`), so the
`float(...)` conversion (with its `except` fallback to `1.0`) is the
identity. -/
def total_hpwl_w (nets : List (String × List NetMember)) (placements : Placement)
    (net_weights : Option (List (String × ℚ))) : ℚ :=
  nets.foldl
    (fun hpwl n =>
      let coords := placedCoords placements n.2
      match coords with
      | [] => hpwl
      | _ :: _ =>
        let w : ℚ := match net_weights with
          | none => 1
          | some m => (m.lookup n.1).getD 1
        hpwl + w * ((span (coords.map Prod.fst) + span (coords.map Prod.snd) : ℤ) : ℚ))
    0

/-- The specification's formula, written from the spec's words (§4.2): Σ over
nets of `weight × (x_span + y_span)` across placed members only, weight `1.0`
when absent, and a net with zero or one placed member contributes `0`. -/
def total_hpwl_spec (nets : List (String × List NetMember))
    (placements : Placement) (net_weights : Option (List (String × ℚ))) : ℚ :=
  (nets.map fun n =>
    let coords := placedCoords placements n.2
    let w : ℚ := match net_weights with
      | none => 1
      | some m => (m.lookup n.1).getD 1
    if coords.length ≤ 1 then 0
    else w * ((span (coords.map Prod.fst) + span (coords.map Prod.snd) : ℤ) : ℚ)).sum

/-- The ordered pairs `(cells[i], cells[j])`, `i < j`, of one net's string
member list — the pairs `build_adjacency` feeds into the symmetric adjacency
sets. -/
def netPairs : List String → List (String × String)
  | [] => []
  | a :: t => (t.map fun b => (a, b)) ++ netPairs t

/-- `build_adjacency(nets)` as its underlying undirected edge list; the Python
`defaultdict(set)` is recovered through `adjSet`. -/
def build_adjacency (nets : List (String × List NetMember)) :
    List (String × String) :=
  nets.flatMap fun n => netPairs (strMembers n.2)

/-- `adj[c]`: the neighbor set of `c` (for a pair `(a, b)` both `adj[a].add(b)`
and `adj[b].add(a)` happen, and a repeated member yields a self-loop, exactly
as in the source). -/
def adjSet (edges : List (String × String)) (c : String) : Finset String :=
  (edges.filterMap fun e =>
    if e.1 = c then some e.2 else if e.2 = c then some e.1 else none).toFinset

/-! ## SeedPlacer and GrowPlacer (src/greedy_algorithm.py lines 90-263) -/

/-- A fabric pin record (`fabric_db["pins"]["pin_placement"]["pins"]`
entries): only the fields the seed stage reads. -/
structure Pin where
  name : String
  x_um : ℚ
  y_um : ℚ
  status : String

/-- `fabric.yaml` geometry fields read by `run_seed`. -/
structure Fabric where
  site_w : ℚ
  site_h : ℚ
  tiles_x : ℕ
  tiles_y : ℕ
  tile_w : ℕ
  tile_h : ℕ

/-- `sites_x = tiles_x * tile_w`, `sites_y = tiles_y * tile_h`. -/
def fabricGrid (f : Fabric) : Grid :=
  ⟨f.tiles_x * f.tile_w, f.tiles_y * f.tile_h, f.site_w, f.site_h⟩

/-- The mutable placer state (`occupied`, `placements`, `pin_site_map`)
threaded through `run_seed` and `run_grow`. -/
structure PlaceState where
  occupied : Finset (ℤ × ℤ)
  placements : Placement
  pin_sites : List (String × (ℤ × ℤ))

/-- `port_to_cells[pname]`: for each bit of the port (bits already rendered as
the strings `str(bit)`), the string members of the net of that name, in
iteration order. -/
def port_to_cells (ports : List (String × List String))
    (nets : List (String × List NetMember)) (pname : String) : List String :=
  match ports.lookup pname with
  | none => []
  | some bits =>
    bits.flatMap fun b =>
      match nets.lookup b with
      | none => []
      | some ms => strMembers ms

/-- Seeding one connected cell: skip it if already placed, otherwise claim the
nearest free site to the pin's site. -/
def seedOneCell (g : Grid) (pinSite : ℤ × ℤ) (st : PlaceState) (cell : String) :
    Option PlaceState :=
  if (st.placements.lookup cell).isSome then some st
  else
    match find_nearest_free pinSite st.occupied g with
    | none => none
    | some cs =>
      some { st with
        occupied := insert cs st.occupied,
        placements := st.placements ++ [(cell, cs)] }

/-- One iteration of `run_seed`'s `for pin in fixed_pins` loop: place the pin
at the nearest free site to its micron location, then seed its connected
cells. -/
def seedPin (g : Grid) (ports : List (String × List String))
    (nets : List (String × List NetMember)) (st : PlaceState) (pin : Pin) :
    Option PlaceState :=
  let t := xy_to_site g pin.x_um pin.y_um
  match find_nearest_free t st.occupied g with
  | none => none
  | some s =>
    let st' : PlaceState :=
      { st with
        occupied := insert s st.occupied,
        pin_sites := st.pin_sites ++ [(pin.name, s)] }
    (port_to_cells ports nets pin.name).foldlM (seedOneCell g s) st'

/-- `run_seed(fabric, fabric_db, logical, occupied, placements, pin_site_map)`:
fold `seedPin` over the FIXED pins in list order.  `none` models the
`RuntimeError` escaping from `find_nearest_free`. -/
def run_seed (f : Fabric) (pins : List Pin) (ports : List (String × List String))
    (nets : List (String × List NetMember)) (st : PlaceState) :
    Option PlaceState :=
  (pins.filter fun p => p.status == "FIXED").foldlM
    (seedPin (fabricGrid f) ports nets) st

/-- First maximizer of `f` in a nonempty list: the semantics of Python
`max(it, key=f)`, which keeps the first element attaining the maximum. -/
def argmaxFirst (f : String → ℕ) : List String → Option String
  | [] => none
  | a :: t => some (t.foldl (fun best c => if f best < f c then c else best) a)

/-- The grow target for a cell chosen from a nonempty bucket: the mean micron
position of its already-placed neighbors, snapped back to a site.  Division by
the neighbor count: the caller only reaches this with at least one placed
neighbor (`max_bucket > 0`). -/
def growTarget (g : Grid) (edges : List (String × String)) (st : PlaceState)
    (cell : String) : ℤ × ℤ :=
  let neigh :=
    (adjSet edges cell).filter fun n => (st.placements.lookup n).isSome
  let k : ℚ := neigh.card
  let bx := (∑ n ∈ neigh, (site_to_xy g ((st.placements.lookup n).getD (0, 0))).1) / k
  let by_ := (∑ n ∈ neigh, (site_to_xy g ((st.placements.lookup n).getD (0, 0))).2) / k
  xy_to_site g bx by_

/-- The body of `run_grow`'s `while unplaced` loop, with `fuel` bounding the
number of iterations (each iteration places exactly one cell, so
`unplaced.length` fuel suffices; the `fuel = 0` branch with cells left is
unreachable from `run_grow`).

The source's bucket array plus `max_bucket` high-water pointer extensionally
selects an unplaced cell with the maximal count of already-placed neighbors,
ties broken by maximal total degree; Python's remaining tie-break is the
unspecified set-iteration order, pinned here to first position in `unplaced`
(the claims proved below do not depend on that choice). -/
def placedCount (edges : List (String × String)) (st : PlaceState)
    (c : String) : ℕ :=
  ((adjSet edges c) ∩ (st.placements.map Prod.fst).toFinset).card

def maxBucket (edges : List (String × String)) (st : PlaceState)
    (unplaced : List String) : ℕ :=
  (unplaced.map (placedCount edges st)).foldl max 0

def growPick (edges : List (String × String)) (st : PlaceState)
    (unplaced : List String) : String :=
  let deg := fun c => (adjSet edges c).card
  let m := maxBucket edges st unplaced
  if 0 < m then
    (argmaxFirst deg
      (unplaced.filter fun c => placedCount edges st c = m)).getD ""
  else (argmaxFirst deg unplaced).getD ""

def run_grow_aux (g : Grid) (edges : List (String × String)) :
    ℕ → List String → PlaceState → Option PlaceState
  | 0, unplaced, st => if unplaced.isEmpty then some st else none
  | fuel + 1, unplaced, st =>
    if unplaced.isEmpty then some st
    else
      let cell := growPick edges st unplaced
      let target :=
        if 0 < maxBucket edges st unplaced then growTarget g edges st cell
        else (((g.sites_x / 2 : ℕ) : ℤ), ((g.sites_y / 2 : ℕ) : ℤ))
      match find_nearest_free target st.occupied g with
      | none => none
      | some p =>
        run_grow_aux g edges fuel (unplaced.erase cell)
          { st with
            occupied := insert p st.occupied,
            placements := st.placements ++ [(cell, p)] }

/-- `run_grow(logical, nets, adj, occupied, placements, ...)`: place every
cell of the logical netlist that the seed stage left unplaced.  `unplaced =
set(all_cells) - set(placements)` is kept in `cells` list order (Python's set
iteration order is unspecified; the claims below are insensitive to it). -/
def run_grow (g : Grid) (edges : List (String × String)) (cells : List String)
    (st : PlaceState) : Option PlaceState :=
  let unplaced := cells.filter fun c => !(st.placements.lookup c).isSome
  run_grow_aux g edges unplaced.length unplaced st

/-! ## AnnealingRefiner (src/sa.py lines 41-171,
src/bonus/sa_with_weights.py lines 30-133)

Randomness model: `random.seed` only fixes the generator, so the individual
draws are abstracted as oracle streams indexed by the global move number:
`refine k` is the outcome of `random.random() < p_refine`, `idx1 k`/`idx2 k`
drive the cell selections (`random.sample`/`random.choice` pick arbitrary
valid indices), and `coin k` is the outcome of the Metropolis test
`random.random() < exp(-delta/T)` (the clamp of the underflowing probability
to `0.0` only shapes the distribution of this Boolean, never the state
transition).  Every theorem below holds for every oracle, hence for every
seeded trajectory of the source. -/

/-- `_swap_sites(placements, c1, c2)`: exchange the two cells' sites. -/
def swapSites (p : Placement) (c1 c2 : String) : Placement :=
  let s1 := (p.lookup c1).getD (0, 0)
  let s2 := (p.lookup c2).getD (0, 0)
  p.map fun kv =>
    if kv.1 = c1 then (kv.1, s2)
    else if kv.1 = c2 then (kv.1, s1)
    else kv

/-- Oracle streams standing for the `random` draws (see section comment). -/
structure SARand where
  refine : ℕ → Bool
  idx1 : ℕ → ℕ
  idx2 : ℕ → ℕ
  coin : ℕ → Bool

/-- The running state of the annealing loop. -/
structure SAState where
  current : Placement
  ccost : ℚ
  best : Placement
  bcost : ℚ

/-- Move-pair selection for one attempt: a global `refine` swap via
`random.sample(cells, 2)`, or an `explore` move restricted to the `W`-site
window around the first cell, falling back to any other cell when the window
is empty.  The oracle indices are reduced modulo the candidate count, so each
pair the source can draw is reachable and only such pairs. -/
def saPickPair (rand : SARand) (k : ℕ) (cells : List String) (cur : Placement)
    (W : ℚ) : String × String :=
  if rand.refine k then
    let i := rand.idx1 k % cells.length
    let c1 := cells.getD i ""
    let rest := cells.eraseIdx i
    (c1, rest.getD (rand.idx2 k % rest.length) "")
  else
    let c1 := cells.getD (rand.idx1 k % cells.length) ""
    let s := (cur.lookup c1).getD (0, 0)
    let wx : ℤ := max 0 (pyRound W)
    let candidates := cells.filter fun c =>
      let s2 := (cur.lookup c).getD (0, 0)
      decide (|s2.1 - s.1| ≤ wx) && decide (|s2.2 - s.2| ≤ wx) && !(c == c1)
    if candidates.isEmpty then
      let others := cells.filter fun c => !(c == c1)
      (c1, others.getD (rand.idx2 k % others.length) "")
    else
      (c1, candidates.getD (rand.idx2 k % candidates.length) "")

/-- The accept branch: commit the new cost and update the best-seen pair when
it improves. -/
def saAccept (cur1 : Placement) (newCost : ℚ) (st : SAState) : SAState :=
  if newCost < st.bcost then ⟨cur1, newCost, cur1, newCost⟩
  else ⟨cur1, newCost, st.best, st.bcost⟩

/-- One move attempt of `src/sa.py`: pick a pair, swap, evaluate, accept by
`delta ≤ 0` or by the Metropolis coin, otherwise revert by swapping back.
With fewer than two cells `random.sample` (refine) or the fallback
`random.choice` on an empty list (explore) raises, modelled as `none`. -/
def saMove (nets : List (String × List NetMember)) (cells : List String)
    (rand : SARand) (k : ℕ) (W : ℚ) (st : SAState) : Option SAState :=
  if cells.length < 2 then none
  else
    let pr := saPickPair rand k cells st.current W
    let cur1 := swapSites st.current pr.1 pr.2
    let newCost := total_hpwl nets cur1
    let delta := newCost - st.ccost
    if delta ≤ 0 then some (saAccept cur1 newCost st)
    else if rand.coin k then some (saAccept cur1 newCost st)
    else some { st with current := swapSites cur1 pr.1 pr.2 }

/-- The `for _ in range(moves_per_temp)` inner loop; `base` numbers the moves
globally for the oracle. -/
def saInner (nets : List (String × List NetMember)) (cells : List String)
    (rand : SARand) (W : ℚ) (moves : ℕ) (base : ℕ) (st : SAState) :
    Option SAState :=
  (List.range moves).foldlM (fun s i => saMove nets cells rand (base + i) W s) st

/-- The `while T > T_min` cooling loop.  Each pass multiplies `T` by `alpha`
and `W` by `beta`; for `0 < alpha < 1` the Python loop terminates, and `fuel`
makes the recursion total — every property proved below holds for every
`fuel`, in particular for one large enough to reach `T ≤ T_min`. -/
def saOuter (nets : List (String × List NetMember)) (cells : List String)
    (rand : SARand) (alpha beta T_min : ℚ) (moves : ℕ) :
    ℕ → ℚ → ℚ → ℕ → SAState → Option SAState
  | 0, _T, _W, _base, st => some st
  | fuel + 1, T, W, base, st =>
    if T ≤ T_min then some st
    else
      match saInner nets cells rand W moves base st with
      | none => none
      | some st' =>
        saOuter nets cells rand alpha beta T_min moves fuel
          (T * alpha) (W * beta) (base + moves) st'

/-- `run_sa(placements, nets, sites_x, sites_y, T_initial, alpha,
moves_per_temp, p_refine, W_initial, beta, T_min, rng_seed, verbose)` from
`src/sa.py`.  `p_refine`, `rng_seed` and `verbose` act only through the
oracle/printing and disappear here.  `copy.deepcopy` is value semantics. -/
def run_sa (placements : Placement) (nets : List (String × List NetMember))
    (sites_x sites_y : ℕ) (T_initial alpha : ℚ) (moves_per_temp : ℕ)
    (W_initial beta : Option ℚ) (T_min : ℚ) (rand : SARand) (fuel : ℕ) :
    Option (Placement × ℚ) :=
  let W0 : ℚ := match W_initial with
    | none => max 1 ((1 / 2) * ((max sites_x sites_y : ℕ) : ℚ))
    | some w => w
  let beta' : ℚ := match beta with
    | none => alpha
    | some b => b
  let current := placements
  let cells := current.map Prod.fst
  let c0 := total_hpwl nets current
  match saOuter nets cells rand alpha beta' T_min moves_per_temp fuel
      T_initial W0 0 ⟨current, c0, current, c0⟩ with
  | none => none
  | some st => some (st.best, st.bcost)

/-- One move attempt of `src/bonus/sa_with_weights.py`.  That file's
Metropolis branch reads a variable `prob` that is never assigned, so every
uphill move (`delta > 0`) raises `NameError`: modelled as `none`. -/
def saMoveW (nets : List (String × List NetMember))
    (net_weights : Option (List (String × ℚ))) (cells : List String)
    (rand : SARand) (k : ℕ) (W : ℚ) (st : SAState) : Option SAState :=
  if cells.length < 2 then none
  else
    let pr := saPickPair rand k cells st.current W
    let cur1 := swapSites st.current pr.1 pr.2
    let newCost := total_hpwl_w nets cur1 net_weights
    let delta := newCost - st.ccost
    if delta ≤ 0 then some (saAccept cur1 newCost st)
    else none

/-- Weighted variant of the inner loop. -/
def saInnerW (nets : List (String × List NetMember))
    (net_weights : Option (List (String × ℚ))) (cells : List String)
    (rand : SARand) (W : ℚ) (moves : ℕ) (base : ℕ) (st : SAState) :
    Option SAState :=
  (List.range moves).foldlM
    (fun s i => saMoveW nets net_weights cells rand (base + i) W s) st

/-- Weighted variant of the cooling loop. -/
def saOuterW (nets : List (String × List NetMember))
    (net_weights : Option (List (String × ℚ))) (cells : List String)
    (rand : SARand) (alpha beta T_min : ℚ) (moves : ℕ) :
    ℕ → ℚ → ℚ → ℕ → SAState → Option SAState
  | 0, _T, _W, _base, st => some st
  | fuel + 1, T, W, base, st =>
    if T ≤ T_min then some st
    else
      match saInnerW nets net_weights cells rand W moves base st with
      | none => none
      | some st' =>
        saOuterW nets net_weights cells rand alpha beta T_min moves fuel
          (T * alpha) (W * beta) (base + moves) st'

/-- `run_sa(..., net_weights)` from `src/bonus/sa_with_weights.py`. -/
def run_sa_w (placements : Placement) (nets : List (String × List NetMember))
    (sites_x sites_y : ℕ) (T_initial alpha : ℚ) (moves_per_temp : ℕ)
    (W_initial beta : Option ℚ) (T_min : ℚ) (rand : SARand)
    (net_weights : Option (List (String × ℚ))) (fuel : ℕ) :
    Option (Placement × ℚ) :=
  let W0 : ℚ := match W_initial with
    | none => max 1 ((1 / 2) * ((max sites_x sites_y : ℕ) : ℚ))
    | some w => w
  let beta' : ℚ := match beta with
    | none => alpha
    | some b => b
  let current := placements
  let cells := current.map Prod.fst
  let c0 := total_hpwl_w nets current net_weights
  match saOuterW nets net_weights cells rand alpha beta' T_min moves_per_temp
      fuel T_initial W0 0 ⟨current, c0, current, c0⟩ with
  | none => none
  | some st => some (st.best, st.bcost)

/-! ## ClockTreeSynthesizer sink clustering (src/eco_genearted.py lines
358-378) -/

/-- A cluster-tree node: the source builds dicts
`{"members": .., "center": .., "children": []}` (leaf) or
`{"children": [left, right]}`, so the tree is binary by construction and the
two shapes become the two constructors. -/
inductive ClusterNode where
  | leaf (members : List (ℚ × ℚ)) (center : ℚ × ℚ)
  | node (members : List (ℚ × ℚ)) (center : ℚ × ℚ) (l r : ClusterNode)

/-- The `"center"` field. -/
def ClusterNode.center : ClusterNode → ℚ × ℚ
  | .leaf _ c => c
  | .node _ c _ _ => c

/-- Leaf centroid: `sum(xs)/len(xs) if xs else 0`. -/
def leafCenter (sinks : List (ℚ × ℚ)) : ℚ × ℚ :=
  let xs := sinks.map Prod.fst
  let ys := sinks.map Prod.snd
  (if xs.isEmpty then 0 else xs.sum / xs.length,
   if ys.isEmpty then 0 else ys.sum / ys.length)

/-- `max` of a coordinate list (only applied to nonempty lists). -/
def qmax (l : List ℚ) : ℚ :=
  match l with
  | [] => 0
  | a :: t => t.foldl max a

/-- `min` of a coordinate list (only applied to nonempty lists). -/
def qmin (l : List ℚ) : ℚ :=
  match l with
  | [] => 0
  | a :: t => t.foldl min a

/-- `cluster_sinks` with explicit recursion fuel.  Each recursive call gets a
strictly shorter list whenever `max_leaf ≥ 1`, so `sinks.length` fuel is
enough and the `fuel = 0` stub coincides with the leaf branch on every
reachable call (for `max_leaf = 0` the Python recursion diverges on a
one-sink cluster, so no claim constrains that case).  `sortLe` with a `≤`
test is a stable ascending sort, the semantics of Python's `sorted`. -/
def cluster_sinks_fuel : ℕ → List (ℚ × ℚ) → ℕ → ClusterNode
  | 0, sinks, _ => .leaf sinks (leafCenter sinks)
  | fuel + 1, sinks, max_leaf =>
    if sinks.length ≤ max_leaf then .leaf sinks (leafCenter sinks)
    else
      let xs := sinks.map Prod.fst
      let ys := sinks.map Prod.snd
      let xrange_ := qmax xs - qmin xs
      let yrange_ := qmax ys - qmin ys
      let key : (ℚ × ℚ) → ℚ := if yrange_ ≤ xrange_ then Prod.fst else Prod.snd
      let ss := sortLe (fun a b => decide (key a ≤ key b)) sinks
      let mid := ss.length / 2
      let left := cluster_sinks_fuel fuel (ss.take mid) max_leaf
      let right := cluster_sinks_fuel fuel (ss.drop mid) max_leaf
      .node sinks
        ((left.center.1 + right.center.1) / 2, (left.center.2 + right.center.2) / 2)
        left right

/-- `cluster_sinks(sinks, max_leaf)`. -/
def cluster_sinks (sinks : List (ℚ × ℚ)) (max_leaf : ℕ) : ClusterNode :=
  cluster_sinks_fuel sinks.length sinks max_leaf

/-- The member lists of the leaves, left to right. -/
def ClusterNode.leafLists : ClusterNode → List (List (ℚ × ℚ))
  | .leaf m _ => [m]
  | .node _ _ l r => l.leafLists ++ r.leafLists

/-! ## TieOffAssigner (src/eco_genearted.py lines 479-535 and the tie-off
phase of modify_mapped_json, lines 705-770).

The earlier phases of `modify_mapped_json` (CTS rewiring, CONB instance
creation, unused-cell identification) only prepare `unused_cells` and the
netlist; they never touch the fanout counters, so the embedding takes the
unused-cell list as an input and models the `netnames` bits bookkeeping away
(nothing below reads it). -/

/-- `Node = namedtuple("Node", ["x", "y", "name", "tile", "cell_type"])`. -/
structure FNode where
  x : ℚ
  y : ℚ
  name : String
  tile : String
  cell_type : String

/-- `b` is a prefix of `t` (character-list version of `str.startswith`). -/
def leadsList : List Char → List Char → Bool
  | [], _ => true
  | _ :: _, [] => false
  | a :: s, b :: t => a == b && leadsList s t

/-- Python's `sub in s` substring test. -/
def strContains (s sub : String) : Bool :=
  s.toList.tails.any fun t => leadsList sub.toList t

/-- Python's `str.lower()` on the ASCII identifiers appearing here (a
kernel-computable equivalent of `String.toLower`). -/
def strLower (s : String) : String := ⟨s.toList.map Char.toLower⟩

/-- One tile's entry in `conb_assignment`. -/
structure ConbInfo where
  conb_node : FNode
  lo_fanout : ℕ
  hi_fanout : ℕ
  max_fanout : ℕ

/-- `assign_conb_per_tile(tile_to_nodes, max_fanout)`: the first CONB of each
tile with zeroed fanout counters; tiles without a CONB are skipped. -/
def assign_conb_per_tile (tile_to_nodes : List (String × List FNode))
    (max_fanout : ℕ) : List (String × ConbInfo) :=
  tile_to_nodes.filterMap fun tn =>
    match tn.2.filter (fun n => strContains (strLower n.cell_type) "conb") with
    | [] => none
    | n :: _ => some (tn.1, ⟨n, 0, 0, max_fanout⟩)

/-- `get_conb_for_cell(cell_x, cell_y, tile_to_nodes, conb_assignment)`:
nearest tile by Euclidean distance to its CONB (squared distance orders
identically; `none` is the initial `best_dist = inf`, and the source's
`tile_to_nodes` argument is unused there too). -/
def get_conb_for_cell (cell_x cell_y : ℚ)
    (_tile_to_nodes : List (String × List FNode))
    (conb_assignment : List (String × ConbInfo)) : Option String :=
  (conb_assignment.foldl
    (fun best t =>
      let d := (t.2.conb_node.x - cell_x) ^ 2 + (t.2.conb_node.y - cell_y) ^ 2
      match best with
      | none => some (t.1, d)
      | some bd => if d < bd.2 then some (t.1, d) else some bd)
    none).map Prod.fst

/-- One `(pin, {tie_low, tie_high})` leakage entry; `none` is an absent key,
read back as `float('inf')`. -/
structure PinLeak where
  tie_low : Option ℚ
  tie_high : Option ℚ

/-- Absent leakage values compare as `float('inf')`. -/
def leakVal : Option ℚ → WithTop ℚ
  | none => ⊤
  | some q => (q : WithTop ℚ)

/-- `determine_optimal_tie(cell_type, pin_name, leakage_db)`; `true` is
`'tie_low'`.  The empty-db test is Python's falsy test on an empty dict. -/
def determine_optimal_tie (cell_type pin_name : String)
    (leakage_db : List (String × List (String × PinLeak))) : Bool :=
  match leakage_db with
  | [] => true
  | _ :: _ =>
    match leakage_db.lookup cell_type with
    | none => true
    | some pins =>
      let pd := (pins.lookup pin_name).getD ⟨none, none⟩
      if leakVal pd.tie_low < leakVal pd.tie_high then true
      else if leakVal pd.tie_high < leakVal pd.tie_low then false
      else true

/-- A netlist cell as the tie-off phase sees it: type and connection map
(pin ↦ list of net bits; string bits matter for the `tie_` test). -/
structure ECOCell where
  ctype : String
  conns : List (String × List NetMember)

/-- The state the tie-off loop threads: the netlist cells, the per-tile
fanout counters, the accumulated warnings, and `tied_count`. -/
structure TieState where
  cells : List (String × ECOCell)
  conbs : List (String × ConbInfo)
  warnings : List String
  tied_count : ℕ

/-- In-place mutation of one tile's counter record (the Python code mutates
the shared `conb_assignment[tile_name]` dict through the `tile_conb_info`
alias). -/
def updateConb (conbs : List (String × ConbInfo)) (tile : String)
    (f : ConbInfo → ConbInfo) : List (String × ConbInfo) :=
  conbs.map fun t => if t.1 = tile then (t.1, f t.2) else t

/-- `cell["connections"][pin] = [tie_net]`. -/
def updateCellPin (cells : List (String × ECOCell)) (inst pin net : String) :
    List (String × ECOCell) :=
  cells.map fun c =>
    if c.1 = inst then
      (c.1, ⟨c.2.ctype,
        c.2.conns.map fun pn => if pn.1 = pin then (pn.1, [NetMember.cell net]) else pn⟩)
    else c

/-- `pin.lower() in output_pin_keywords or any(k in pin.lower() for k in
["y", "q", "z", "x", "out"])`. -/
def isOutputPin (pin : String) : Bool :=
  ["y", "q", "zn", "z", "x", "out"].contains (strLower pin) ||
  ["y", "q", "z", "x", "out"].any fun k => strContains (strLower pin) k

/-- The body of the per-pin loop (lines 735-770): skip output pins and
already-tied pins, pick the leakage-optimal polarity, then either tie the pin
and increment that polarity's tile counter, or — when the counter has reached
`max_fanout` — record a fanout-exceeded warning and leave everything else
unchanged. -/
def tiePin (leakage_db : List (String × List (String × PinLeak)))
    (tile_name inst cell_type : String) (st : TieState)
    (pinNet : String × List NetMember) : TieState :=
  if isOutputPin pinNet.1 then st
  else if pinNet.2.any (fun m =>
      match m with
      | .cell s => leadsList "tie_".toList s.toList
      | .token => false) then st
  else
    match st.conbs.lookup tile_name with
    | none => st
    | some info =>
      if determine_optimal_tie cell_type pinNet.1 leakage_db then
        if info.max_fanout ≤ info.lo_fanout then
          { st with warnings := st.warnings ++ ["Tile " ++ tile_name ++ " LO fanout exceeded"] }
        else
          { st with
            conbs := updateConb st.conbs tile_name
              (fun i => ⟨i.conb_node, i.lo_fanout + 1, i.hi_fanout, i.max_fanout⟩),
            cells := updateCellPin st.cells inst pinNet.1 ("tie_low_" ++ tile_name),
            tied_count := st.tied_count + 1 }
      else
        if info.max_fanout ≤ info.hi_fanout then
          { st with warnings := st.warnings ++ ["Tile " ++ tile_name ++ " HI fanout exceeded"] }
        else
          { st with
            conbs := updateConb st.conbs tile_name
              (fun i => ⟨i.conb_node, i.lo_fanout, i.hi_fanout + 1, i.max_fanout⟩),
            cells := updateCellPin st.cells inst pinNet.1 ("tie_high_" ++ tile_name),
            tied_count := st.tied_count + 1 }

/-- The body of the per-cell loop (`for inst in unused_cells`): resolve the
serving tile (nearest CONB, falling back to the first tile), then walk a
snapshot of the cell's connection items.  `tie_nets` has exactly the keys of
`conb_assignment`, so the source's `tile_name not in tie_nets` guard is the
`lookup` inside `tiePin`. -/
def tieCell (leakage_db : List (String × List (String × PinLeak)))
    (tile_to_nodes : List (String × List FNode))
    (placement_map : List (String × (ℚ × ℚ))) (st : TieState) (inst : String) :
    TieState :=
  match st.cells.lookup inst with
  | none => st
  | some cell =>
    let cxy := (placement_map.lookup inst).getD (0, 0)
    let tile? :=
      match get_conb_for_cell cxy.1 cxy.2 tile_to_nodes st.conbs with
      | some t => some t
      | none => (st.conbs.head?).map Prod.fst
    match tile? with
    | none => st
    | some tile_name => cell.conns.foldl (tiePin leakage_db tile_name inst cell.ctype) st

/-- The tie-off phase of `modify_mapped_json`: fold the per-cell step over
`unused_cells`, starting from the counters `assign_conb_per_tile` zeroed. -/
def tie_off_run (leakage_db : List (String × List (String × PinLeak)))
    (tile_to_nodes : List (String × List FNode))
    (placement_map : List (String × (ℚ × ℚ)))
    (cells : List (String × ECOCell)) (unused_cells : List String)
    (max_fanout : ℕ) : TieState :=
  unused_cells.foldl (tieCell leakage_db tile_to_nodes placement_map)
    ⟨cells, assign_conb_per_tile tile_to_nodes max_fanout, [], 0⟩

/-! ## General list lemmas used across the claims -/

/-- `insertLe` inserts, up to permutation. -/
theorem insertLe_perm {α : Type} (le : α → α → Bool) (a : α) :
    ∀ l : List α, (insertLe le a l).Perm (a :: l) := by
  intro l
  induction l with
  | nil => simp [insertLe]
  | cons b t ih =>
    simp only [insertLe]
    by_cases h : le a b = true
    · simp [h]
    · simp only [h]
    
      exact ((ih.cons b).trans (List.Perm.swap a b t))

/-- `sortLe` is a permutation of its input. -/
theorem sortLe_perm {α : Type} (le : α → α → Bool) :
    ∀ l : List α, (sortLe le l).Perm l := by
  intro l
  induction l with
  | nil => simp [sortLe]
  | cons a t ih =>
    simpa [sortLe] using (insertLe_perm le a (sortLe le t)).trans (ih.cons a)

/-- A fold that adds one contribution per element is the sum of the
contributions. -/
theorem foldl_step_eq_sum {α : Type} (step : ℚ → α → ℚ) (f : α → ℚ)
    (hstep : ∀ acc n, step acc n = acc + f n) :
    ∀ (l : List α) (a : ℚ), l.foldl step a = a + (l.map f).sum := by
  intro l
  induction l with
  | nil => intro a; simp
  | cons n t ih =>
    intro a
    simp only [List.foldl_cons, List.map_cons, List.sum_cons]
    rw [ih, hstep]
    ring

/-- The span of a one-element coordinate list is `0`. -/
theorem span_singleton (a : ℤ) : span [a] = 0 := by
  simp [span]

/-- C5 helper: the weighted fold computes the specification's sum. -/
theorem total_hpwl_w_eq_spec (nets : List (String × List NetMember))
    (placements : Placement) (net_weights : Option (List (String × ℚ))) :
    total_hpwl_w nets placements net_weights =
      total_hpwl_spec nets placements net_weights := by
  unfold total_hpwl_w total_hpwl_spec
  rw [foldl_step_eq_sum _ (fun n =>
    let coords := placedCoords placements n.2
    let w : ℚ := match net_weights with
      | none => 1
      | some m => (m.lookup n.1).getD 1
    if coords.length ≤ 1 then 0
    else w * ((span (coords.map Prod.fst) + span (coords.map Prod.snd) : ℤ) : ℚ))]
  · simp
  · intro acc n
    rcases hc : placedCoords placements n.2 with _ | ⟨c, t⟩
    · simp [hc]
    · rcases t with _ | ⟨c2, t2⟩
      · simp [hc, span_singleton]
      · simp only [hc]
        have : ¬ (c :: c2 :: t2).length ≤ 1 := by simp
        simp [this]

/-- C5 helper: the unweighted fold is the weighted one at `net_weights =
None`. -/
theorem total_hpwl_eq_w_none (nets : List (String × List NetMember))
    (placements : Placement) :
    total_hpwl nets placements = total_hpwl_w nets placements none := by
  rw [total_hpwl_w_eq_spec]
  unfold total_hpwl total_hpwl_spec
  rw [foldl_step_eq_sum _ (fun n =>
    let coords := placedCoords placements n.2
    if coords.length ≤ 1 then 0
    else ((span (coords.map Prod.fst) + span (coords.map Prod.snd) : ℤ) : ℚ))]
  · simp
  · intro acc n
    rcases hc : placedCoords placements n.2 with _ | ⟨c, t⟩
    · simp [hc]
    · rcases t with _ | ⟨c2, t2⟩
      · simp [hc, span_singleton]
      · simp only [hc]
        have : ¬ (c :: c2 :: t2).length ≤ 1 := by simp
        simp [this]

/-- C5: `total_hpwl(nets, placements, weights?)` is Σ over nets of `weight ×
(x_span + y_span)` across the placed string members, with weight `1.0` for
nets without a supplied weight and contribution `0` for nets with zero or one
placed member; the unweighted `total_hpwl` of `src/sa.py` is the
`net_weights = None` instance; and on cells a, b, c at sites (1,1), (2,2),
(3,3) with nets n1:[a,b], n2:[b,c] the total is 4. -/
theorem C5_total_hpwl_spec_and_scenario :
    (∀ (nets : List (String × List NetMember)) (placements : Placement)
      (net_weights : Option (List (String × ℚ))),
      total_hpwl_w nets placements net_weights =
        total_hpwl_spec nets placements net_weights) ∧
    (∀ (nets : List (String × List NetMember)) (placements : Placement),
      total_hpwl nets placements = total_hpwl_w nets placements none) ∧
    total_hpwl
      [("n1", [.cell "a", .cell "b"]), ("n2", [.cell "b", .cell "c"])]
      [("a", (1, 1)), ("b", (2, 2)), ("c", (3, 3))] = 4 := by
  refine ⟨total_hpwl_w_eq_spec, total_hpwl_eq_w_none, ?_⟩
  simp [total_hpwl, placedCoords, span, List.lookup, List.filterMap_cons]
  norm_num

/-! ## C6: the cluster tree partitions the sink set -/

/-- The combined leaf-level specification of `cluster_sinks_fuel`, proved for
any fuel at least the sink-list length. -/
theorem cluster_sinks_fuel_spec (max_leaf : ℕ) (hml : 1 ≤ max_leaf) :
    ∀ (fuel : ℕ) (sinks : List (ℚ × ℚ)), sinks.length ≤ fuel →
      ((cluster_sinks_fuel fuel sinks max_leaf).leafLists.flatten.Perm sinks ∧
        ∀ m ∈ (cluster_sinks_fuel fuel sinks max_leaf).leafLists,
          m.length ≤ max_leaf) := by
  intro fuel
  induction fuel with
  | zero =>
    intro sinks hlen
    have hnil : sinks = [] := List.length_eq_zero.mp (Nat.le_zero.mp hlen)
    subst hnil
    constructor
    · simp [cluster_sinks_fuel, ClusterNode.leafLists]
    · intro m hm
      simp [cluster_sinks_fuel, ClusterNode.leafLists] at hm
      simp [hm]
  | succ fuel ih =>
    intro sinks hlen
    by_cases hleaf : sinks.length ≤ max_leaf
    · constructor
      · simp [cluster_sinks_fuel, hleaf, ClusterNode.leafLists]
      · intro m hm
        simp [cluster_sinks_fuel, hleaf, ClusterNode.leafLists] at hm
        simpa [hm] using hleaf
    · push_neg at hleaf
      have hlen2 : 2 ≤ sinks.length := by omega
      set key : (ℚ × ℚ) → ℚ :=
        if qmax (sinks.map Prod.snd) - qmin (sinks.map Prod.snd) ≤
            qmax (sinks.map Prod.fst) - qmin (sinks.map Prod.fst)
        then Prod.fst else Prod.snd with hkey
      set ss := sortLe (fun a b => decide (key a ≤ key b)) sinks with hss
      have hperm : ss.Perm sinks := sortLe_perm _ sinks
      have hsslen : ss.length = sinks.length := hperm.length_eq
      set mid := ss.length / 2 with hmid
      have hmid1 : 1 ≤ mid := by omega
      have hmidlt : mid < ss.length := by omega
      have htake : (ss.take mid).length ≤ fuel := by
        simp only [List.length_take]
        omega
      have hdrop : (ss.drop mid).length ≤ fuel := by
        simp only [List.length_drop]
        omega
      obtain ⟨ihl1, ihl2⟩ := ih (ss.take mid) htake
      obtain ⟨ihr1, ihr2⟩ := ih (ss.drop mid) hdrop
      have hstep :
          cluster_sinks_fuel (fuel + 1) sinks max_leaf =
            .node sinks
              (((cluster_sinks_fuel fuel (ss.take mid) max_leaf).center.1 +
                  (cluster_sinks_fuel fuel (ss.drop mid) max_leaf).center.1) / 2,
               ((cluster_sinks_fuel fuel (ss.take mid) max_leaf).center.2 +
                  (cluster_sinks_fuel fuel (ss.drop mid) max_leaf).center.2) / 2)
              (cluster_sinks_fuel fuel (ss.take mid) max_leaf)
              (cluster_sinks_fuel fuel (ss.drop mid) max_leaf) := by
        rw [cluster_sinks_fuel]
        simp only [if_neg (by omega : ¬ sinks.length ≤ max_leaf)]
      constructor
      · rw [hstep]
        simp only [ClusterNode.leafLists, List.flatten_append]
        have h1 : ((cluster_sinks_fuel fuel (ss.take mid) max_leaf).leafLists.flatten ++
            (cluster_sinks_fuel fuel (ss.drop mid) max_leaf).leafLists.flatten).Perm
            (ss.take mid ++ ss.drop mid) := ihl1.append ihr1
        rw [List.take_append_drop] at h1
        exact h1.trans hperm
      · rw [hstep]
        intro m hm
        simp only [ClusterNode.leafLists, List.mem_append] at hm
        rcases hm with hm | hm
        · exact ihl2 m hm
        · exact ihr2 m hm

/-- C6: for every sink list and `max_leaf ≥ 1`, `cluster_sinks` (total by
construction, hence terminating) returns a binary tree — the `ClusterNode`
type has only leaf and two-child nodes — whose leaf member lists have at most
`max_leaf` members each and together are a permutation of the input: no sink
duplicated or lost. -/
theorem C6_cluster_sinks_partition (sinks : List (ℚ × ℚ)) (max_leaf : ℕ)
    (hml : 1 ≤ max_leaf) :
    (cluster_sinks sinks max_leaf).leafLists.flatten.Perm sinks ∧
    ∀ m ∈ (cluster_sinks sinks max_leaf).leafLists, m.length ≤ max_leaf :=
  cluster_sinks_fuel_spec max_leaf hml sinks.length sinks le_rfl

/-- C6 witness: the spec's scenario sinks {(0,0),(10,0),(0,10),(10,10)} with
`max_leaf = 2`. -/
theorem C6_witness :
    (1 : ℕ) ≤ 2 ∧
    ((cluster_sinks [(0, 0), (10, 0), (0, 10), (10, 10)] 2).leafLists.flatten.Perm
        [(0, 0), (10, 0), (0, 10), (10, 10)] ∧
      ∀ m ∈ (cluster_sinks [(0, 0), (10, 0), (0, 10), (10, 10)] 2).leafLists,
        m.length ≤ 2) :=
  ⟨by norm_num,
   C6_cluster_sinks_partition [(0, 0), (10, 0), (0, 10), (10, 10)] 2 (by norm_num)⟩

/-! ## Association-list lemmas for the annealer's swaps -/

/-- Overwrite the value stored at one key (leaving the list untouched when the
key is absent). -/
def setVal {β : Type} (c : String) (v : β) (p : List (String × β)) :
    List (String × β) :=
  p.map fun kv => if kv.1 = c then (kv.1, v) else kv

/-- `lookup` succeeds exactly on the stored keys. -/
theorem lookup_isSome_iff {β : Type} {p : List (String × β)} {c : String} :
    (p.lookup c).isSome ↔ c ∈ p.map Prod.fst := by
  induction p with
  | nil => simp
  | cons kv t ih =>
    rcases kv with ⟨k, v⟩
    by_cases hck : c = k
    · subst hck
      simp [List.lookup]
    · have hkk : (c == k) = false := beq_eq_false_iff_ne.mpr hck
      rw [List.lookup]
      simp [hkk, ih, hck]

/-- A found value lives among the stored values. -/
theorem lookup_mem_snd {β : Type} {p : List (String × β)} {c : String} {s : β}
    (h : p.lookup c = some s) : s ∈ p.map Prod.snd := by
  induction p with
  | nil => simp at h
  | cons kv t ih =>
    rcases kv with ⟨k, v⟩
    by_cases hck : c = k
    · subst hck
      rw [List.lookup] at h
      simp at h
      simp [h]
    · have hkk : (c == k) = false := beq_eq_false_iff_ne.mpr hck
      rw [List.lookup] at h
      simp only [hkk] at h
      simp [ih h]

/-- `setVal` never changes the key list. -/
theorem setVal_keys {β : Type} (c : String) (v : β) (p : List (String × β)) :
    (setVal c v p).map Prod.fst = p.map Prod.fst := by
  induction p with
  | nil => rfl
  | cons kv t ih =>
    by_cases h : kv.1 = c
    · simp [setVal, h] at ih ⊢
      exact ih
    · simp [setVal, h] at ih ⊢
      exact ih

/-- Setting an absent key is the identity. -/
theorem setVal_of_not_mem {β : Type} {c : String} {p : List (String × β)}
    (v : β) (h : c ∉ p.map Prod.fst) : setVal c v p = p := by
  induction p with
  | nil => rfl
  | cons kv t ih =>
    simp only [List.map_cons, List.mem_cons, not_or] at h
    have h1 : ¬ kv.1 = c := fun hh => h.1 hh.symm
    have h2 := ih h.2
    simp only [setVal, List.map_cons, if_neg h1] at h2 ⊢
    rw [h2]

/-- With duplicate-free keys, overwriting the key found at value `s` replaces
exactly one occurrence of `s` among the values. -/
theorem setVal_snd_perm {β : Type} [DecidableEq β] {c : String} {s : β}
    {p : List (String × β)}
    (v : β) (hnd : (p.map Prod.fst).Nodup) (h : p.lookup c = some s) :
    ((setVal c v p).map Prod.snd).Perm (v :: (p.map Prod.snd).erase s) := by
  induction p with
  | nil => simp at h
  | cons kv t ih =>
    rcases kv with ⟨k, w⟩
    simp only [List.map_cons, List.nodup_cons] at hnd
    by_cases hck : c = k
    · subst hck
      rw [List.lookup] at h
      simp at h
      subst h
      have hnot : c ∉ t.map Prod.fst := hnd.1
      have ht : setVal c v t = t := setVal_of_not_mem v hnot
      simp only [setVal, List.map_cons, if_pos rfl] at ht ⊢
      rw [ht]
      simp [List.erase_cons_head]
    · have hkk : (c == k) = false := beq_eq_false_iff_ne.mpr hck
      rw [List.lookup] at h
      simp only [hkk] at h
      have hmem : s ∈ t.map Prod.snd := lookup_mem_snd h
      have ihh := ih hnd.2 h
      have hk : ¬ k = c := fun hh => hck hh.symm
      simp only [setVal, List.map_cons, if_neg hk] at ihh ⊢
      by_cases hws : w = s
      · subst hws
        rw [List.erase_cons_head]
        refine (ihh.cons w).trans ?_
        refine (List.Perm.swap v w _).trans ?_
        exact ((List.perm_cons_erase hmem).symm.cons v : _)
      · rw [List.erase_cons_tail]
        · exact (ihh.cons w).trans (List.Perm.swap v w _)
        · simp [hws]

/-- Looking up the overwritten key. -/
theorem setVal_lookup_self {β : Type} (c : String) (v : β)
    (p : List (String × β)) :
    (setVal c v p).lookup c = (p.lookup c).map fun _ => v := by
  induction p with
  | nil => rfl
  | cons kv t ih =>
    rcases kv with ⟨k, w⟩
    by_cases hck : k = c
    · subst hck
      have hhead : setVal k v ((k, w) :: t) = (k, v) :: setVal k v t := by
        simp [setVal]
      rw [hhead, List.lookup, List.lookup]
      simp
    · have hhead : setVal c v ((k, w) :: t) = (k, w) :: setVal c v t := by
        simp [setVal, hck]
      have hkk : (c == k) = false :=
        beq_eq_false_iff_ne.mpr fun hh => hck hh.symm
      rw [hhead, List.lookup, List.lookup]
      simp only [hkk]
      exact ih

/-- Looking up a different key sees through `setVal`. -/
theorem setVal_lookup_ne {β : Type} {c c' : String} (v : β)
    (p : List (String × β)) (h : c' ≠ c) :
    (setVal c v p).lookup c' = p.lookup c' := by
  induction p with
  | nil => rfl
  | cons kv t ih =>
    rcases kv with ⟨k, w⟩
    by_cases hck : k = c
    · subst hck
      have hhead : setVal k v ((k, w) :: t) = (k, v) :: setVal k v t := by
        simp [setVal]
      have hkk : (c' == k) = false := beq_eq_false_iff_ne.mpr h
      rw [hhead, List.lookup, List.lookup]
      simp only [hkk]
      exact ih
    · have hhead : setVal c v ((k, w) :: t) = (k, w) :: setVal c v t := by
        simp [setVal, hck]
      rw [hhead, List.lookup, List.lookup]
      by_cases hc'k : c' = k
      · subst hc'k
        simp
      · have hkk : (c' == k) = false := beq_eq_false_iff_ne.mpr hc'k
        simp only [hkk]
        exact ih

/-- Writes to distinct keys commute. -/
theorem setVal_comm {β : Type} {c c' : String} (v w : β)
    (p : List (String × β)) (h : c ≠ c') :
    setVal c v (setVal c' w p) = setVal c' w (setVal c v p) := by
  simp only [setVal, List.map_map]
  refine List.map_congr_left ?_
  intro kv _
  by_cases h1 : kv.1 = c
  · subst h1
    simp [h, Ne.symm h]
  · by_cases h2 : kv.1 = c'
    · subst h2
      simp [h1]
    · simp [h1, h2]

/-- The second write to the same key wins. -/
theorem setVal_absorb {β : Type} (c : String) (v w : β)
    (p : List (String × β)) :
    setVal c v (setVal c w p) = setVal c v p := by
  simp only [setVal, List.map_map]
  refine List.map_congr_left ?_
  intro kv _
  by_cases h1 : kv.1 = c
  · subst h1
    simp
  · simp [h1]

/-- With duplicate-free keys, rewriting a key to its stored value is the
identity. -/
theorem setVal_self {β : Type} {c : String} {s : β} {p : List (String × β)}
    (hnd : (p.map Prod.fst).Nodup) (h : p.lookup c = some s) :
    setVal c s p = p := by
  induction p with
  | nil => rfl
  | cons kv t ih =>
    rcases kv with ⟨k, w⟩
    simp only [List.map_cons, List.nodup_cons] at hnd
    by_cases hck : c = k
    · subst hck
      rw [List.lookup] at h
      simp at h
      subst h
      have ht := setVal_of_not_mem w hnd.1
      simp only [setVal, List.map_cons, if_pos rfl] at ht ⊢
      rw [ht]
      simp
    · have hkk : (c == k) = false := beq_eq_false_iff_ne.mpr hck
      rw [List.lookup] at h
      simp only [hkk] at h
      have ht := ih hnd.2 h
      have hk : ¬ k = c := fun hh => hck hh.symm
      simp only [setVal, List.map_cons, if_neg hk] at ht ⊢
      rw [ht]

/-- `erase` at the head, phrased for the `BEq` that `DecidableEq` induces (the
instance the permutation lemmas above produce). -/
theorem erase_cons_head_dec {α : Type} [DecidableEq α] (a : α) (l : List α) :
    (@List.erase α instBEqOfDecidableEq (a :: l) a) = l := by
  simp [List.erase_cons]

/-- For distinct cells, `_swap_sites` is two single-key writes with the values
read before the writes. -/
theorem swapSites_eq_setVal (p : Placement) (c1 c2 : String) (hne : c1 ≠ c2) :
    swapSites p c1 c2 =
      setVal c2 ((p.lookup c1).getD (0, 0))
        (setVal c1 ((p.lookup c2).getD (0, 0)) p) := by
  unfold swapSites setVal
  simp only [List.map_map]
  refine List.map_congr_left ?_
  intro kv _
  by_cases h1 : kv.1 = c1
  · have h2 : ¬ kv.1 = c2 := by
      rw [h1]
      exact hne
    simp [h1, h2, hne]
  · by_cases h2 : kv.1 = c2
    · simp [h1, h2, hne, (Ne.symm hne : ¬ c2 = c1)]
    · simp [h1, h2]

/-- Swapping a stored cell with itself changes nothing (keys
duplicate-free). -/
theorem swapSites_self (p : Placement) (c : String)
    (hnd : (p.map Prod.fst).Nodup) (hc : c ∈ p.map Prod.fst) :
    swapSites p c c = p := by
  obtain ⟨s, hs⟩ := Option.isSome_iff_exists.mp (lookup_isSome_iff.mpr hc)
  have heq : swapSites p c c = setVal c s p := by
    unfold swapSites setVal
    refine List.map_congr_left ?_
    intro kv _
    by_cases h : kv.1 = c
    · simp [h, hs]
    · simp [h]
  rw [heq]
  exact setVal_self hnd hs

/-- `_swap_sites` never changes the key list. -/
theorem swapSites_keys (p : Placement) (c1 c2 : String) :
    (swapSites p c1 c2).map Prod.fst = p.map Prod.fst := by
  unfold swapSites
  simp only [List.map_map]
  refine List.map_congr_left ?_
  intro kv _
  by_cases h1 : kv.1 = c1
  · simp [h1]
  · by_cases h2 : kv.1 = c2
    · by_cases hne : c2 = c1
      · simp [h1, h2, hne]
      · simp [h1, h2, hne]
    · simp [h1, h2]

/-- C4's core fact: a swap of two stored cells permutes the stored sites. -/
theorem swapSites_snd_perm (p : Placement) (c1 c2 : String)
    (hnd : (p.map Prod.fst).Nodup) (h1 : c1 ∈ p.map Prod.fst)
    (h2 : c2 ∈ p.map Prod.fst) :
    ((swapSites p c1 c2).map Prod.snd).Perm (p.map Prod.snd) := by
  by_cases hne : c1 = c2
  · subst hne
    rw [swapSites_self p c1 hnd h1]
  · obtain ⟨s1, hs1⟩ := Option.isSome_iff_exists.mp (lookup_isSome_iff.mpr h1)
    obtain ⟨s2, hs2⟩ := Option.isSome_iff_exists.mp (lookup_isSome_iff.mpr h2)
    rw [swapSites_eq_setVal p c1 c2 hne, hs1, hs2]
    simp only [Option.getD_some]
    have hq_keys : (setVal c1 s2 p).map Prod.fst = p.map Prod.fst :=
      setVal_keys c1 s2 p
    have hq_nd : ((setVal c1 s2 p).map Prod.fst).Nodup := by
      rw [hq_keys]
      exact hnd
    have hq_lookup : (setVal c1 s2 p).lookup c2 = some s2 := by
      rw [setVal_lookup_ne s2 p (Ne.symm hne), hs2]
    have houter := setVal_snd_perm s1 hq_nd hq_lookup
    have hinner := setVal_snd_perm s2 hnd hs1
    have hinner_erase := hinner.erase s2
    rw [erase_cons_head_dec] at hinner_erase
    have hmem1 : s1 ∈ p.map Prod.snd := lookup_mem_snd hs1
    exact houter.trans
      ((hinner_erase.cons s1).trans (List.perm_cons_erase hmem1).symm)

/-- Looking up the first swapped cell afterwards sees the second one's old
site. -/
theorem swapSites_lookup_left (p : Placement) (c1 c2 : String) (s1 s2 : ℤ × ℤ)
    (hne : c1 ≠ c2) (hs1 : p.lookup c1 = some s1) (hs2 : p.lookup c2 = some s2) :
    (swapSites p c1 c2).lookup c1 = some s2 := by
  rw [swapSites_eq_setVal p c1 c2 hne, hs1, hs2]
  simp only [Option.getD_some]
  rw [setVal_lookup_ne s1 _ hne, setVal_lookup_self, hs1]
  rfl

/-- Looking up the second swapped cell afterwards sees the first one's old
site. -/
theorem swapSites_lookup_right (p : Placement) (c1 c2 : String) (s1 s2 : ℤ × ℤ)
    (hne : c1 ≠ c2) (hs1 : p.lookup c1 = some s1) (hs2 : p.lookup c2 = some s2) :
    (swapSites p c1 c2).lookup c2 = some s1 := by
  rw [swapSites_eq_setVal p c1 c2 hne, hs1, hs2]
  simp only [Option.getD_some]
  rw [setVal_lookup_self]
  rw [setVal_lookup_ne s2 p (Ne.symm hne), hs2]
  rfl

/-- The revert in `run_sa`'s reject branch: swapping the same pair again
restores the placement exactly. -/
theorem swapSites_involutive (p : Placement) (c1 c2 : String)
    (hnd : (p.map Prod.fst).Nodup) (h1 : c1 ∈ p.map Prod.fst)
    (h2 : c2 ∈ p.map Prod.fst) :
    swapSites (swapSites p c1 c2) c1 c2 = p := by
  by_cases hne : c1 = c2
  · subst hne
    rw [swapSites_self p c1 hnd h1, swapSites_self p c1 hnd h1]
  · obtain ⟨s1, hs1⟩ := Option.isSome_iff_exists.mp (lookup_isSome_iff.mpr h1)
    obtain ⟨s2, hs2⟩ := Option.isSome_iff_exists.mp (lookup_isSome_iff.mpr h2)
    have hl1 := swapSites_lookup_left p c1 c2 s1 s2 hne hs1 hs2
    have hl2 := swapSites_lookup_right p c1 c2 s1 s2 hne hs1 hs2
    rw [swapSites_eq_setVal _ c1 c2 hne, hl1, hl2]
    simp only [Option.getD_some]
    rw [swapSites_eq_setVal p c1 c2 hne, hs1, hs2]
    simp only [Option.getD_some]
    rw [show setVal c1 s1 (setVal c2 s1 (setVal c1 s2 p)) =
        setVal c2 s1 (setVal c1 s1 (setVal c1 s2 p)) from setVal_comm s1 s1 _ hne,
      setVal_absorb c1 s1 s2 p, setVal_self hnd hs1, setVal_absorb c2 s2 s1 p,
      setVal_self hnd hs2]

/-- Threading an invariant through a monadic fold over `Option`. -/
theorem foldlM_option_inv {σ α : Type} (Inv : σ → Prop) (f : σ → α → Option σ)
    (hf : ∀ s a s', Inv s → f s a = some s' → Inv s') :
    ∀ (l : List α) (s s' : σ), Inv s → l.foldlM f s = some s' → Inv s' := by
  intro l
  induction l with
  | nil =>
    intro s s' h he
    simp only [List.foldlM_nil, Option.pure_def, Option.some.injEq] at he
    rwa [← he]
  | cons a t ih =>
    intro s s' h he
    rw [List.foldlM_cons] at he
    cases hfa : f s a with
    | none =>
      simp [hfa] at he
    | some s1 =>
      simp only [hfa, Option.bind_eq_bind, Option.some_bind] at he
      exact ih s1 s' (hf s a s1 h hfa) he

/-- `getD` at a valid index is a member. -/
theorem getD_mem {α : Type} (l : List α) (i : ℕ) (d : α) (h : i < l.length) :
    l.getD i d ∈ l := by
  rw [List.getD_eq_getElem l d h]
  exact List.getElem_mem h

/-- Both cells an SA move picks are cells of the placement. -/
theorem saPickPair_mem (rand : SARand) (k : ℕ) (cells : List String)
    (cur : Placement) (W : ℚ) (hnd : cells.Nodup) (hlen : 2 ≤ cells.length) :
    (saPickPair rand k cells cur W).1 ∈ cells ∧
      (saPickPair rand k cells cur W).2 ∈ cells := by
  have hpos : 0 < cells.length := by omega
  unfold saPickPair
  by_cases hr : rand.refine k = true
  · simp only [hr, if_true]
    have hi : rand.idx1 k % cells.length < cells.length := Nat.mod_lt _ hpos
    refine ⟨getD_mem _ _ _ hi, ?_⟩
    have hrest : (cells.eraseIdx (rand.idx1 k % cells.length)).length =
        cells.length - 1 := List.length_eraseIdx_of_lt hi
    have hrpos : 0 < (cells.eraseIdx (rand.idx1 k % cells.length)).length := by
      omega
    have hj : rand.idx2 k % (cells.eraseIdx (rand.idx1 k % cells.length)).length <
        (cells.eraseIdx (rand.idx1 k % cells.length)).length :=
      Nat.mod_lt _ hrpos
    exact List.eraseIdx_subset _ _ (getD_mem _ _ _ hj)
  · simp only [hr, if_false]
    have hi : rand.idx1 k % cells.length < cells.length := Nat.mod_lt _ hpos
    set c1 := cells.getD (rand.idx1 k % cells.length) "" with hc1
    have hc1m : c1 ∈ cells := getD_mem _ _ _ hi
    set s := (cur.lookup c1).getD (0, 0) with hs
    set wx : ℤ := max 0 (pyRound W) with hwx
    set candidates := cells.filter fun c =>
      let s2 := (cur.lookup c).getD (0, 0)
      decide (|s2.1 - s.1| ≤ wx) && decide (|s2.2 - s.2| ≤ wx) && !(c == c1)
      with hcand
    by_cases hce : candidates.isEmpty = true
    · simp only [hce, if_true]
      refine ⟨hc1m, ?_⟩
      have hex : ∃ x ∈ cells, x ≠ c1 := by
        rcases cells with _ | ⟨a, _ | ⟨b, t⟩⟩
        · simp at hlen
        · simp at hlen
        · have hab : a ≠ b := by
            have hna := (List.nodup_cons.mp hnd).1
            intro he
            exact hna (by simp [he])
          by_cases ha : a = c1
          · exact ⟨b, by simp, by rw [← ha]; exact fun he => hab he.symm⟩
          · exact ⟨a, by simp, ha⟩
      obtain ⟨x, hxm, hxne⟩ := hex
      have hxo : x ∈ cells.filter fun c => !(c == c1) := by
        simp [List.mem_filter, hxm, hxne]
      have hopos : 0 < (cells.filter fun c => !(c == c1)).length :=
        List.length_pos_of_mem hxo
      have hj := Nat.mod_lt (rand.idx2 k) hopos
      exact List.mem_of_mem_filter (getD_mem _ _ _ hj)
    · simp only [hce, if_false]
      refine ⟨hc1m, ?_⟩
      have hcpos : 0 < candidates.length := by
        rcases hlen2 : candidates with _ | ⟨a, t⟩
        · rw [hlen2] at hce
          simp at hce
        · simp
      have hj := Nat.mod_lt (rand.idx2 k) hcpos
      have hmm : candidates.getD (rand.idx2 k % candidates.length) "" ∈ candidates :=
        getD_mem _ _ _ hj
      rw [hcand] at hmm
      exact List.mem_of_mem_filter hmm

/-- The invariant the annealing loop maintains, for an abstract cost
function: current and best placements keep the input's keys and permute the
input's sites, and the cached costs are the true costs, with the best one
never above the input's cost. -/
def SAStateInv (cost : Placement → ℚ) (input : Placement) (st : SAState) :
    Prop :=
  st.current.map Prod.fst = input.map Prod.fst ∧
  (st.current.map Prod.snd).Perm (input.map Prod.snd) ∧
  st.best.map Prod.fst = input.map Prod.fst ∧
  (st.best.map Prod.snd).Perm (input.map Prod.snd) ∧
  st.ccost = cost st.current ∧
  st.bcost = cost st.best ∧
  st.bcost ≤ cost input

/-- `saAccept` maintains the invariant when handed the true cost of the
swapped placement. -/
theorem saAccept_inv (cost : Placement → ℚ) (input : Placement) (st : SAState)
    (cur1 : Placement) (newCost : ℚ) (hinv : SAStateInv cost input st)
    (hkeys1 : cur1.map Prod.fst = input.map Prod.fst)
    (hperm1 : (cur1.map Prod.snd).Perm (input.map Prod.snd))
    (hcost : newCost = cost cur1) :
    SAStateInv cost input (saAccept cur1 newCost st) := by
  obtain ⟨hk, hp, hbk, hbp, hcc, hbc, hble⟩ := hinv
  unfold saAccept
  by_cases hlt : newCost < st.bcost
  · simp only [if_pos hlt]
    exact ⟨hkeys1, hperm1, hkeys1, hperm1, hcost, hcost,
      le_trans (le_of_lt hlt) hble⟩
  · simp only [if_neg hlt]
    exact ⟨hkeys1, hperm1, hbk, hbp, hcost, hbc, hble⟩

/-- One `src/sa.py` move attempt maintains the invariant (cells list = the
input's keys, as `run_sa` sets it up). -/
theorem saMove_inv (nets : List (String × List NetMember)) (rand : SARand)
    (k : ℕ) (W : ℚ) (input : Placement) (st st' : SAState)
    (hnd : (input.map Prod.fst).Nodup)
    (hinv : SAStateInv (total_hpwl nets) input st)
    (h : saMove nets (input.map Prod.fst) rand k W st = some st') :
    SAStateInv (total_hpwl nets) input st' := by
  simp only [saMove] at h
  split at h
  · exact absurd h (by simp)
  · rename_i hlen2
    push_neg at hlen2
    obtain ⟨hm1, hm2⟩ :=
      saPickPair_mem rand k (input.map Prod.fst) st.current W hnd hlen2
    have hinv' := hinv
    obtain ⟨hk, hp, hbk, hbp, hcc, hbc, hble⟩ := hinv'
    have hnd' : (st.current.map Prod.fst).Nodup := by
      rw [hk]
      exact hnd
    have hm1' : (saPickPair rand k (input.map Prod.fst) st.current W).1 ∈
        st.current.map Prod.fst := by
      rw [hk]
      exact hm1
    have hm2' : (saPickPair rand k (input.map Prod.fst) st.current W).2 ∈
        st.current.map Prod.fst := by
      rw [hk]
      exact hm2
    have hkeys1 : (swapSites st.current
        (saPickPair rand k (input.map Prod.fst) st.current W).1
        (saPickPair rand k (input.map Prod.fst) st.current W).2).map Prod.fst =
        input.map Prod.fst := by
      rw [swapSites_keys, hk]
    have hperm1 : ((swapSites st.current
        (saPickPair rand k (input.map Prod.fst) st.current W).1
        (saPickPair rand k (input.map Prod.fst) st.current W).2).map
          Prod.snd).Perm (input.map Prod.snd) :=
      (swapSites_snd_perm _ _ _ hnd' hm1' hm2').trans hp
    split at h
    · injection h with h
      subst h
      exact saAccept_inv _ input st _ _ hinv hkeys1 hperm1 rfl
    · split at h
      · injection h with h
        subst h
        exact saAccept_inv _ input st _ _ hinv hkeys1 hperm1 rfl
      · injection h with h
        subst h
        have hrev : swapSites (swapSites st.current
            (saPickPair rand k (input.map Prod.fst) st.current W).1
            (saPickPair rand k (input.map Prod.fst) st.current W).2)
            (saPickPair rand k (input.map Prod.fst) st.current W).1
            (saPickPair rand k (input.map Prod.fst) st.current W).2 =
            st.current :=
          swapSites_involutive _ _ _ hnd' hm1' hm2'
        exact ⟨by simpa [hrev] using hk, by simpa [hrev] using hp, hbk, hbp,
          by simpa [hrev] using hcc, hbc, hble⟩

/-- The annealing invariant survives the whole inner loop. -/
theorem saInner_inv (nets : List (String × List NetMember)) (rand : SARand)
    (W : ℚ) (moves base : ℕ) (input : Placement) (st st' : SAState)
    (hnd : (input.map Prod.fst).Nodup)
    (hinv : SAStateInv (total_hpwl nets) input st)
    (h : saInner nets (input.map Prod.fst) rand W moves base st = some st') :
    SAStateInv (total_hpwl nets) input st' := by
  refine foldlM_option_inv (SAStateInv (total_hpwl nets) input) _ ?_
    (List.range moves) st st' hinv h
  intro s a s' hs he
  exact saMove_inv nets rand (base + a) W input s s' hnd hs he

/-- The annealing invariant survives the whole cooling loop. -/
theorem saOuter_inv (nets : List (String × List NetMember)) (rand : SARand)
    (alpha beta T_min : ℚ) (moves : ℕ) (input : Placement)
    (hnd : (input.map Prod.fst).Nodup) :
    ∀ (fuel : ℕ) (T W : ℚ) (base : ℕ) (st st' : SAState),
      SAStateInv (total_hpwl nets) input st →
      saOuter nets (input.map Prod.fst) rand alpha beta T_min moves fuel T W
        base st = some st' →
      SAStateInv (total_hpwl nets) input st' := by
  intro fuel
  induction fuel with
  | zero =>
    intro T W base st st' hinv h
    simp only [saOuter] at h
    injection h with h
    subst h
    exact hinv
  | succ fuel ih =>
    intro T W base st st' hinv h
    simp only [saOuter] at h
    split at h
    · injection h with h
      subst h
      exact hinv
    · split at h
      · exact absurd h (by simp)
      · rename_i st1 heq
        exact ih _ _ _ st1 st' (saInner_inv nets rand W moves base input st st1
          hnd hinv heq) h

/-- `best_cost` never increases across a single move. -/
theorem saMove_bcost_le (nets : List (String × List NetMember))
    (cells : List String) (rand : SARand) (k : ℕ) (W : ℚ) (st st' : SAState)
    (h : saMove nets cells rand k W st = some st') : st'.bcost ≤ st.bcost := by
  simp only [saMove] at h
  split at h
  · exact absurd h (by simp)
  · split at h
    · injection h with h
      subst h
      unfold saAccept
      split
      · rename_i hlt
        exact le_of_lt hlt
      · exact le_refl _
    · split at h
      · injection h with h
        subst h
        unfold saAccept
        split
        · rename_i hlt
          exact le_of_lt hlt
        · exact le_refl _
      · injection h with h
        subst h
        exact le_refl _

/-- `best_cost` never increases across the inner loop. -/
theorem saInner_bcost_le (nets : List (String × List NetMember))
    (cells : List String) (rand : SARand) (W : ℚ) (moves base : ℕ)
    (st st' : SAState)
    (h : saInner nets cells rand W moves base st = some st') :
    st'.bcost ≤ st.bcost := by
  refine foldlM_option_inv (fun s => s.bcost ≤ st.bcost) _ ?_
    (List.range moves) st st' (le_refl _) h
  intro s a s' hs he
  exact le_trans (saMove_bcost_le nets cells rand (base + a) W s s' he) hs

/-- `best_cost` never increases across the cooling loop. -/
theorem saOuter_bcost_le (nets : List (String × List NetMember))
    (cells : List String) (rand : SARand) (alpha beta T_min : ℚ) (moves : ℕ) :
    ∀ (fuel : ℕ) (T W : ℚ) (base : ℕ) (st st' : SAState),
      saOuter nets cells rand alpha beta T_min moves fuel T W base st =
        some st' →
      st'.bcost ≤ st.bcost := by
  intro fuel
  induction fuel with
  | zero =>
    intro T W base st st' h
    simp only [saOuter] at h
    injection h with h
    subst h
    exact le_refl _
  | succ fuel ih =>
    intro T W base st st' h
    simp only [saOuter] at h
    split at h
    · injection h with h
      subst h
      exact le_refl _
    · split at h
      · exact absurd h (by simp)
      · rename_i st1 heq
        exact le_trans (ih _ _ _ st1 st' h)
          (saInner_bcost_le nets cells rand W moves base st st1 heq)

/-- The cost-consistency part of the invariant alone (what the weighted
variant needs: it has no revert branch, every uphill move aborts). -/
def SACostInv (cost : Placement → ℚ) (st : SAState) : Prop :=
  st.ccost = cost st.current ∧ st.bcost = cost st.best

/-- One weighted move attempt keeps the cached costs true. -/
theorem saMoveW_costinv (nets : List (String × List NetMember))
    (nw : Option (List (String × ℚ))) (cells : List String) (rand : SARand)
    (k : ℕ) (W : ℚ) (st st' : SAState)
    (hinv : SACostInv (fun p => total_hpwl_w nets p nw) st)
    (h : saMoveW nets nw cells rand k W st = some st') :
    SACostInv (fun p => total_hpwl_w nets p nw) st' := by
  simp only [saMoveW] at h
  split at h
  · exact absurd h (by simp)
  · split at h
    · injection h with h
      subst h
      unfold saAccept
      split
      · exact ⟨rfl, rfl⟩
      · exact ⟨rfl, hinv.2⟩
    · exact absurd h (by simp)

/-- Weighted inner loop: cached costs stay true. -/
theorem saInnerW_costinv (nets : List (String × List NetMember))
    (nw : Option (List (String × ℚ))) (cells : List String) (rand : SARand)
    (W : ℚ) (moves base : ℕ) (st st' : SAState)
    (hinv : SACostInv (fun p => total_hpwl_w nets p nw) st)
    (h : saInnerW nets nw cells rand W moves base st = some st') :
    SACostInv (fun p => total_hpwl_w nets p nw) st' := by
  refine foldlM_option_inv (SACostInv (fun p => total_hpwl_w nets p nw)) _ ?_
    (List.range moves) st st' hinv h
  intro s a s' hs he
  exact saMoveW_costinv nets nw cells rand (base + a) W s s' hs he

/-- Weighted cooling loop: cached costs stay true. -/
theorem saOuterW_costinv (nets : List (String × List NetMember))
    (nw : Option (List (String × ℚ))) (cells : List String) (rand : SARand)
    (alpha beta T_min : ℚ) (moves : ℕ) :
    ∀ (fuel : ℕ) (T W : ℚ) (base : ℕ) (st st' : SAState),
      SACostInv (fun p => total_hpwl_w nets p nw) st →
      saOuterW nets nw cells rand alpha beta T_min moves fuel T W base st =
        some st' →
      SACostInv (fun p => total_hpwl_w nets p nw) st' := by
  intro fuel
  induction fuel with
  | zero =>
    intro T W base st st' hinv h
    simp only [saOuterW] at h
    injection h with h
    subst h
    exact hinv
  | succ fuel ih =>
    intro T W base st st' hinv h
    simp only [saOuterW] at h
    split at h
    · injection h with h
      subst h
      exact hinv
    · split at h
      · exact absurd h (by simp)
      · rename_i st1 heq
        exact ih _ _ _ st1 st'
          (saInnerW_costinv nets nw cells rand W moves base st st1 hinv heq) h

/-- C3: whatever trajectory the random draws take and however long the
cooling loop runs, the returned `best_cost` is at most the HPWL of the input
placement (it starts there and only ever decreases). -/
theorem C3_run_sa_best_cost_le_input (placements : Placement)
    (nets : List (String × List NetMember)) (sites_x sites_y : ℕ)
    (T_initial alpha : ℚ) (moves_per_temp : ℕ) (W_initial beta : Option ℚ)
    (T_min : ℚ) (rand : SARand) (fuel : ℕ) (bp : Placement) (bc : ℚ)
    (h : run_sa placements nets sites_x sites_y T_initial alpha moves_per_temp
      W_initial beta T_min rand fuel = some (bp, bc)) :
    bc ≤ total_hpwl nets placements := by
  simp only [run_sa] at h
  split at h
  · exact absurd h (by simp)
  · rename_i st heq
    injection h with h
    injection h with h1 h2
    subst h2
    exact saOuter_bcost_le nets _ rand _ _ T_min moves_per_temp fuel
      T_initial _ 0 _ st heq

/-- C3 witness: a concrete two-cell run (temperature already at the floor, so
the loop body is not entered and the input pair is returned). -/
theorem C3_witness :
    run_sa [("a", ((0 : ℤ), (0 : ℤ))), ("b", (1, 0))]
        [("n", [.cell "a", .cell "b"])] 4 4 1 (1 / 2) 3 none none 1
        ⟨fun _ => true, fun _ => 0, fun _ => 0, fun _ => false⟩ 2 =
      some ([("a", ((0 : ℤ), (0 : ℤ))), ("b", (1, 0))], 1) ∧
    (1 : ℚ) ≤ total_hpwl [("n", [.cell "a", .cell "b"])]
      [("a", ((0 : ℤ), (0 : ℤ))), ("b", (1, 0))] := by
  have he : run_sa [("a", ((0 : ℤ), (0 : ℤ))), ("b", (1, 0))]
      [("n", [.cell "a", .cell "b"])] 4 4 1 (1 / 2) 3 none none 1
      ⟨fun _ => true, fun _ => 0, fun _ => 0, fun _ => false⟩ 2 =
      some ([("a", ((0 : ℤ), (0 : ℤ))), ("b", (1, 0))], 1) := by
    simp [run_sa, saOuter, total_hpwl, placedCoords, span, List.lookup,
      List.filterMap_cons]
  exact ⟨he, C3_run_sa_best_cost_le_input _ _ _ _ _ _ _ _ _ _ _ _ _ _ he⟩

/-- C4: every move `run_sa` performs is a swap of two stored cells' sites —
the reject branch swaps the same pair back — so the multiset of occupied
sites (and hence the occupied-site count) is preserved: (i) a single
`_swap_sites` of stored cells preserves the site multiset, (ii) every move
attempt keeps both the current and the best placement's site multiset equal
to the input's, and (iii) the returned best placement's site multiset equals
the input placement's. -/
theorem C4_run_sa_swap_multiset :
    (∀ (p : Placement) (c1 c2 : String),
      c1 ∈ p.map Prod.fst → c2 ∈ p.map Prod.fst → (p.map Prod.fst).Nodup →
      ((swapSites p c1 c2).map Prod.snd : Multiset (ℤ × ℤ)) =
        (p.map Prod.snd : Multiset (ℤ × ℤ))) ∧
    (∀ (nets : List (String × List NetMember)) (rand : SARand) (k : ℕ) (W : ℚ)
      (input : Placement) (st st' : SAState),
      (input.map Prod.fst).Nodup →
      SAStateInv (total_hpwl nets) input st →
      saMove nets (input.map Prod.fst) rand k W st = some st' →
      (st'.current.map Prod.snd : Multiset (ℤ × ℤ)) =
        (input.map Prod.snd : Multiset (ℤ × ℤ)) ∧
      (st'.best.map Prod.snd : Multiset (ℤ × ℤ)) =
        (input.map Prod.snd : Multiset (ℤ × ℤ))) ∧
    (∀ (placements : Placement) (nets : List (String × List NetMember))
      (sites_x sites_y : ℕ) (T_initial alpha : ℚ) (moves_per_temp : ℕ)
      (W_initial beta : Option ℚ) (T_min : ℚ) (rand : SARand) (fuel : ℕ)
      (bp : Placement) (bc : ℚ),
      (placements.map Prod.fst).Nodup →
      run_sa placements nets sites_x sites_y T_initial alpha moves_per_temp
        W_initial beta T_min rand fuel = some (bp, bc) →
      (bp.map Prod.snd : Multiset (ℤ × ℤ)) =
        (placements.map Prod.snd : Multiset (ℤ × ℤ))) := by
  refine ⟨?_, ?_, ?_⟩
  · intro p c1 c2 h1 h2 hnd
    exact Multiset.coe_eq_coe.mpr (swapSites_snd_perm p c1 c2 hnd h1 h2)
  · intro nets rand k W input st st' hnd hinv h
    obtain ⟨_, hp, _, hbp, _, _, _⟩ := saMove_inv nets rand k W input st st'
      hnd hinv h
    exact ⟨Multiset.coe_eq_coe.mpr hp, Multiset.coe_eq_coe.mpr hbp⟩
  · intro placements nets sites_x sites_y T_initial alpha moves W_initial
      beta T_min rand fuel bp bc hnd h
    simp only [run_sa] at h
    split at h
    · exact absurd h (by simp)
    · rename_i st heq
      injection h with h
      injection h with h1 h2
      subst h1
      obtain ⟨_, _, _, hbperm, _, _, _⟩ :=
        saOuter_inv nets rand alpha _ T_min moves placements hnd fuel
          T_initial _ 0 _ st
          ⟨rfl, List.Perm.refl _, rfl, List.Perm.refl _, rfl, rfl, le_refl _⟩
          heq
      exact Multiset.coe_eq_coe.mpr hbperm

/-- C9: the returned pair of `run_sa` is internally consistent — `best_cost`
is the HPWL of the returned best placement, for the unweighted `src/sa.py`
version and for the weighted `src/bonus/sa_with_weights.py` version whenever
the latter returns (its Metropolis branch reads an unassigned `prob` and so
aborts any run that attempts an uphill move). -/
theorem C9_run_sa_best_pair_consistent :
    (∀ (placements : Placement) (nets : List (String × List NetMember))
      (sites_x sites_y : ℕ) (T_initial alpha : ℚ) (moves_per_temp : ℕ)
      (W_initial beta : Option ℚ) (T_min : ℚ) (rand : SARand) (fuel : ℕ)
      (bp : Placement) (bc : ℚ),
      (placements.map Prod.fst).Nodup →
      run_sa placements nets sites_x sites_y T_initial alpha moves_per_temp
        W_initial beta T_min rand fuel = some (bp, bc) →
      bc = total_hpwl nets bp) ∧
    (∀ (placements : Placement) (nets : List (String × List NetMember))
      (sites_x sites_y : ℕ) (T_initial alpha : ℚ) (moves_per_temp : ℕ)
      (W_initial beta : Option ℚ) (T_min : ℚ) (rand : SARand)
      (net_weights : Option (List (String × ℚ))) (fuel : ℕ)
      (bp : Placement) (bc : ℚ),
      run_sa_w placements nets sites_x sites_y T_initial alpha moves_per_temp
        W_initial beta T_min rand net_weights fuel = some (bp, bc) →
      bc = total_hpwl_w nets bp net_weights) := by
  constructor
  · intro placements nets sites_x sites_y T_initial alpha moves W_initial
      beta T_min rand fuel bp bc hnd h
    simp only [run_sa] at h
    split at h
    · exact absurd h (by simp)
    · rename_i st heq
      injection h with h
      injection h with h1 h2
      subst h1
      subst h2
      obtain ⟨_, _, _, _, _, hbc, _⟩ :=
        saOuter_inv nets rand alpha _ T_min moves placements hnd fuel
          T_initial _ 0 _ st
          ⟨rfl, List.Perm.refl _, rfl, List.Perm.refl _, rfl, rfl, le_refl _⟩
          heq
      exact hbc
  · intro placements nets sites_x sites_y T_initial alpha moves W_initial
      beta T_min rand net_weights fuel bp bc h
    simp only [run_sa_w] at h
    split at h
    · exact absurd h (by simp)
    · rename_i st heq
      injection h with h
      injection h with h1 h2
      subst h1
      subst h2
      exact (saOuterW_costinv nets net_weights _ rand alpha _ T_min moves fuel
        T_initial _ 0 _ st ⟨rfl, rfl⟩ heq).2

/-- C4 witness: the two-cell placement {a ↦ (0,0), b ↦ (1,0)} on one net,
with a concrete swap, a concrete accepted move, and a concrete completed
run. -/
theorem C4_witness :
    (([("a", ((0 : ℤ), (0 : ℤ))), ("b", (1, 0))] : Placement).map
      Prod.fst).Nodup ∧
    ((swapSites [("a", ((0 : ℤ), (0 : ℤ))), ("b", (1, 0))] "a" "b").map
        Prod.snd : Multiset (ℤ × ℤ)) =
      (([("a", ((0 : ℤ), (0 : ℤ))), ("b", (1, 0))] : Placement).map
        Prod.snd : Multiset (ℤ × ℤ)) ∧
    saMove [("n", [.cell "a", .cell "b"])]
        (([("a", ((0 : ℤ), (0 : ℤ))), ("b", (1, 0))] : Placement).map Prod.fst)
        ⟨fun _ => true, fun _ => 0, fun _ => 0, fun _ => false⟩ 0 1
        ⟨[("a", ((0 : ℤ), (0 : ℤ))), ("b", (1, 0))], 1,
          [("a", ((0 : ℤ), (0 : ℤ))), ("b", (1, 0))], 1⟩ =
      some ⟨[("a", ((1 : ℤ), (0 : ℤ))), ("b", (0, 0))], 1,
        [("a", ((0 : ℤ), (0 : ℤ))), ("b", (1, 0))], 1⟩ ∧
    (([("a", ((1 : ℤ), (0 : ℤ))), ("b", (0, 0))] : Placement).map
        Prod.snd : Multiset (ℤ × ℤ)) =
      (([("a", ((0 : ℤ), (0 : ℤ))), ("b", (1, 0))] : Placement).map
        Prod.snd : Multiset (ℤ × ℤ)) ∧
    run_sa [("a", ((0 : ℤ), (0 : ℤ))), ("b", (1, 0))]
        [("n", [.cell "a", .cell "b"])] 4 4 1 (1 / 2) 3 none none 1
        ⟨fun _ => true, fun _ => 0, fun _ => 0, fun _ => false⟩ 2 =
      some ([("a", ((0 : ℤ), (0 : ℤ))), ("b", (1, 0))], 1) ∧
    (([("a", ((0 : ℤ), (0 : ℤ))), ("b", (1, 0))] : Placement).map
        Prod.snd : Multiset (ℤ × ℤ)) =
      (([("a", ((0 : ℤ), (0 : ℤ))), ("b", (1, 0))] : Placement).map
        Prod.snd : Multiset (ℤ × ℤ)) := by
  have hnd : (([("a", ((0 : ℤ), (0 : ℤ))), ("b", (1, 0))] : Placement).map
      Prod.fst).Nodup := by
    decide
  have hH : total_hpwl [("n", [.cell "a", .cell "b"])]
      [("a", ((0 : ℤ), (0 : ℤ))), ("b", (1, 0))] = 1 := by
    simp [total_hpwl, placedCoords, span, List.lookup, List.filterMap_cons]
  have hmv : saMove [("n", [.cell "a", .cell "b"])]
      (([("a", ((0 : ℤ), (0 : ℤ))), ("b", (1, 0))] : Placement).map Prod.fst)
      ⟨fun _ => true, fun _ => 0, fun _ => 0, fun _ => false⟩ 0 1
      ⟨[("a", ((0 : ℤ), (0 : ℤ))), ("b", (1, 0))], 1,
        [("a", ((0 : ℤ), (0 : ℤ))), ("b", (1, 0))], 1⟩ =
      some ⟨[("a", ((1 : ℤ), (0 : ℤ))), ("b", (0, 0))], 1,
        [("a", ((0 : ℤ), (0 : ℤ))), ("b", (1, 0))], 1⟩ := by
    simp [saMove, saPickPair, swapSites, saAccept, total_hpwl, placedCoords,
      span, List.lookup, List.filterMap_cons]
  have hinv0 : SAStateInv
      (total_hpwl [("n", [.cell "a", .cell "b"])])
      [("a", ((0 : ℤ), (0 : ℤ))), ("b", (1, 0))]
      ⟨[("a", ((0 : ℤ), (0 : ℤ))), ("b", (1, 0))], 1,
        [("a", ((0 : ℤ), (0 : ℤ))), ("b", (1, 0))], 1⟩ :=
    ⟨rfl, List.Perm.refl _, rfl, List.Perm.refl _, hH.symm, hH.symm,
      le_of_eq hH.symm⟩
  have he : run_sa [("a", ((0 : ℤ), (0 : ℤ))), ("b", (1, 0))]
      [("n", [.cell "a", .cell "b"])] 4 4 1 (1 / 2) 3 none none 1
      ⟨fun _ => true, fun _ => 0, fun _ => 0, fun _ => false⟩ 2 =
      some ([("a", ((0 : ℤ), (0 : ℤ))), ("b", (1, 0))], 1) := by
    simp [run_sa, saOuter, total_hpwl, placedCoords, span, List.lookup,
      List.filterMap_cons]
  refine ⟨hnd, C4_run_sa_swap_multiset.1 _ "a" "b" (by decide) (by decide) hnd,
    hmv, ?_, he, C4_run_sa_swap_multiset.2.2 _ _ 4 4 1 (1 / 2) 3 none none 1 _
      2 _ 1 hnd he⟩
  exact (C4_run_sa_swap_multiset.2.1 _ _ 0 1 _ _ _ hnd hinv0 hmv).1

/-- C9 witness: the same two-cell run for the unweighted and the weighted
variant. -/
theorem C9_witness :
    (([("a", ((0 : ℤ), (0 : ℤ))), ("b", (1, 0))] : Placement).map
      Prod.fst).Nodup ∧
    run_sa [("a", ((0 : ℤ), (0 : ℤ))), ("b", (1, 0))]
        [("n", [.cell "a", .cell "b"])] 4 4 1 (1 / 2) 3 none none 1
        ⟨fun _ => true, fun _ => 0, fun _ => 0, fun _ => false⟩ 2 =
      some ([("a", ((0 : ℤ), (0 : ℤ))), ("b", (1, 0))], 1) ∧
    (1 : ℚ) = total_hpwl [("n", [.cell "a", .cell "b"])]
      [("a", ((0 : ℤ), (0 : ℤ))), ("b", (1, 0))] ∧
    run_sa_w [("a", ((0 : ℤ), (0 : ℤ))), ("b", (1, 0))]
        [("n", [.cell "a", .cell "b"])] 4 4 1 (1 / 2) 3 none none 1
        ⟨fun _ => true, fun _ => 0, fun _ => 0, fun _ => false⟩ none 2 =
      some ([("a", ((0 : ℤ), (0 : ℤ))), ("b", (1, 0))], 1) ∧
    (1 : ℚ) = total_hpwl_w [("n", [.cell "a", .cell "b"])]
      [("a", ((0 : ℤ), (0 : ℤ))), ("b", (1, 0))] none := by
  have hnd : (([("a", ((0 : ℤ), (0 : ℤ))), ("b", (1, 0))] : Placement).map
      Prod.fst).Nodup := by
    decide
  have he : run_sa [("a", ((0 : ℤ), (0 : ℤ))), ("b", (1, 0))]
      [("n", [.cell "a", .cell "b"])] 4 4 1 (1 / 2) 3 none none 1
      ⟨fun _ => true, fun _ => 0, fun _ => 0, fun _ => false⟩ 2 =
      some ([("a", ((0 : ℤ), (0 : ℤ))), ("b", (1, 0))], 1) := by
    simp [run_sa, saOuter, total_hpwl, placedCoords, span, List.lookup,
      List.filterMap_cons]
  have hew : run_sa_w [("a", ((0 : ℤ), (0 : ℤ))), ("b", (1, 0))]
      [("n", [.cell "a", .cell "b"])] 4 4 1 (1 / 2) 3 none none 1
      ⟨fun _ => true, fun _ => 0, fun _ => 0, fun _ => false⟩ none 2 =
      some ([("a", ((0 : ℤ), (0 : ℤ))), ("b", (1, 0))], 1) := by
    simp [run_sa_w, saOuterW, total_hpwl_w, placedCoords, span, List.lookup,
      List.filterMap_cons]
  exact ⟨hnd, he,
    C9_run_sa_best_pair_consistent.1 _ _ 4 4 1 (1 / 2) 3 none none 1 _ 2 _ 1
      hnd he,
    hew,
    C9_run_sa_best_pair_consistent.2 _ _ 4 4 1 (1 / 2) 3 none none 1 _ none 2
      _ 1 hew⟩

/-! ## C7: tie-off fanout counters stay within `max_fanout` -/

/-- Threading an invariant through a plain fold. -/
theorem foldl_inv {σ α : Type} (Inv : σ → Prop) (f : σ → α → σ)
    (hf : ∀ s a, Inv s → Inv (f s a)) :
    ∀ (l : List α) (s : σ), Inv s → Inv (l.foldl f s) := by
  intro l
  induction l with
  | nil => intro s h; exact h
  | cons a t ih =>
    intro s h
    exact ih (f s a) (hf s a h)

/-- In a duplicate-free association list, membership determines the lookup. -/
theorem lookup_of_mem_nodup {β : Type} {p : List (String × β)} {k : String}
    {v : β} (hnd : (p.map Prod.fst).Nodup) (h : (k, v) ∈ p) :
    p.lookup k = some v := by
  induction p with
  | nil => simp at h
  | cons kv t ih =>
    rcases kv with ⟨k0, v0⟩
    simp only [List.map_cons, List.nodup_cons] at hnd
    rcases List.mem_cons.mp h with hm | hm
    · rw [Prod.mk.injEq] at hm
      obtain ⟨h1, h2⟩ := hm
      subst h1
      subst h2
      rw [List.lookup]
      simp
    · have hne : k ≠ k0 := by
        intro he
        subst he
        exact hnd.1 (List.mem_map.mpr ⟨(k, v), hm, rfl⟩)
      have hkk : (k == k0) = false := beq_eq_false_iff_ne.mpr hne
      rw [List.lookup]
      simp only [hkk]
      exact ih hnd.2 hm

/-- Every tile entry's fanout counters are within its `max_fanout`. -/
def ConbBounded (conbs : List (String × ConbInfo)) : Prop :=
  ∀ t ∈ conbs, t.2.lo_fanout ≤ t.2.max_fanout ∧ t.2.hi_fanout ≤ t.2.max_fanout

/-- `updateConb` keeps the key list. -/
theorem updateConb_keys (conbs : List (String × ConbInfo)) (tile : String)
    (f : ConbInfo → ConbInfo) :
    (updateConb conbs tile f).map Prod.fst = conbs.map Prod.fst := by
  unfold updateConb
  simp only [List.map_map]
  refine List.map_congr_left ?_
  intro kv _
  by_cases h : kv.1 = tile
  · simp [h]
  · simp [h]

/-- The tie-off state invariant: duplicate-free tile keys and bounded
counters. -/
def TieInv (st : TieState) : Prop :=
  (st.conbs.map Prod.fst).Nodup ∧ ConbBounded st.conbs

/-- One pin of the tie-off loop preserves the invariant: a polarity whose
counter has reached `max_fanout` only appends a warning, and otherwise that
counter was strictly below the bound before being incremented. -/
theorem tiePin_inv (leakage_db : List (String × List (String × PinLeak)))
    (tile_name inst cell_type : String) (st : TieState)
    (pinNet : String × List NetMember) (hinv : TieInv st) :
    TieInv (tiePin leakage_db tile_name inst cell_type st pinNet) := by
  obtain ⟨hnd, hbd⟩ := hinv
  unfold tiePin
  split
  · exact ⟨hnd, hbd⟩
  · split
    · exact ⟨hnd, hbd⟩
    · split
      · exact ⟨hnd, hbd⟩
      · rename_i info hlook
        have hbump : ∀ (f : ConbInfo → ConbInfo),
            (∀ i, (f i).lo_fanout ≤ (f i).max_fanout ∧
              (f i).hi_fanout ≤ (f i).max_fanout ∨ f i = i) →
            True := fun _ _ => trivial
        split
        · split
          · exact ⟨hnd, hbd⟩
          · rename_i hfan
            push_neg at hfan
            refine ⟨by simpa [updateConb_keys] using hnd, ?_⟩
            intro t ht
            unfold updateConb at ht
            obtain ⟨t0, ht0, rfl⟩ := List.mem_map.mp ht
            by_cases hkey : t0.1 = tile_name
            · have hlv : st.conbs.lookup t0.1 = some t0.2 :=
                lookup_of_mem_nodup hnd (by simpa using ht0)
              rw [hkey, hlook] at hlv
              injection hlv with hlv
              rw [hlv] at hfan
              simp only [hkey, if_pos rfl]
              refine ⟨?_, ?_⟩
              · show t0.2.lo_fanout + 1 ≤ t0.2.max_fanout
                omega
              · show t0.2.hi_fanout ≤ t0.2.max_fanout
                exact (hbd t0 ht0).2
            · simp only [if_neg hkey]
              exact hbd t0 ht0
        · split
          · exact ⟨hnd, hbd⟩
          · rename_i hfan
            push_neg at hfan
            refine ⟨by simpa [updateConb_keys] using hnd, ?_⟩
            intro t ht
            unfold updateConb at ht
            obtain ⟨t0, ht0, rfl⟩ := List.mem_map.mp ht
            by_cases hkey : t0.1 = tile_name
            · have hlv : st.conbs.lookup t0.1 = some t0.2 :=
                lookup_of_mem_nodup hnd (by simpa using ht0)
              rw [hkey, hlook] at hlv
              injection hlv with hlv
              rw [hlv] at hfan
              simp only [hkey, if_pos rfl]
              refine ⟨?_, ?_⟩
              · show t0.2.lo_fanout ≤ t0.2.max_fanout
                exact (hbd t0 ht0).1
              · show t0.2.hi_fanout + 1 ≤ t0.2.max_fanout
                omega
            · simp only [if_neg hkey]
              exact hbd t0 ht0

/-- One unused cell preserves the invariant. -/
theorem tieCell_inv (leakage_db : List (String × List (String × PinLeak)))
    (tile_to_nodes : List (String × List FNode))
    (placement_map : List (String × (ℚ × ℚ))) (st : TieState) (inst : String)
    (hinv : TieInv st) :
    TieInv (tieCell leakage_db tile_to_nodes placement_map st inst) := by
  simp only [tieCell]
  split
  · exact hinv
  · split
    · exact hinv
    · exact foldl_inv TieInv _ (fun s a hs => tiePin_inv _ _ _ _ s a hs) _ st
        hinv

/-- The keys `assign_conb_per_tile` emits are a sublist of the tile keys. -/
theorem assign_conb_keys_sublist (tiles : List (String × List FNode))
    (mf : ℕ) :
    ((assign_conb_per_tile tiles mf).map Prod.fst).Sublist
      (tiles.map Prod.fst) := by
  induction tiles with
  | nil => simp [assign_conb_per_tile]
  | cons tn t ih =>
    unfold assign_conb_per_tile at ih ⊢
    rw [List.filterMap_cons]
    cases hc : tn.2.filter fun n => strContains (strLower n.cell_type) "conb" with
    | nil =>
      simp only [hc]
      exact ih.cons tn.1
    | cons n rest =>
      simp only [hc, List.map_cons]
      exact ih.cons₂ tn.1

/-- `assign_conb_per_tile` starts every tile at zero of `max_fanout`. -/
theorem assign_conb_bounded (tiles : List (String × List FNode)) (mf : ℕ) :
    ConbBounded (assign_conb_per_tile tiles mf) := by
  intro t ht
  unfold assign_conb_per_tile at ht
  obtain ⟨tn, _, heq⟩ := List.mem_filterMap.mp ht
  rcases hc : tn.2.filter fun n => strContains (strLower n.cell_type) "conb" with
    _ | ⟨n, rest⟩
  · rw [hc] at heq
    simp at heq
  · rw [hc] at heq
    injection heq with heq
    rw [← heq]
    exact ⟨Nat.zero_le _, Nat.zero_le _⟩

/-- C7: throughout the tie-off run no tile's LO or HI counter ever exceeds
`max_fanout` — a pin whose chosen polarity's counter has reached the bound is
skipped with a fanout-exceeded warning and no counter changes (the `tiePin`
branch proved inside `tiePin_inv`); and on the spec's scenario — one tile
with one CONB, `max_fanout = 1`, two unused LO-tying cells — the first cell
ties (LO counter 1), the second only emits the warning and stays untied. -/
theorem C7_tie_off_fanout_bounded :
    (∀ (leakage_db : List (String × List (String × PinLeak)))
      (tile_to_nodes : List (String × List FNode))
      (placement_map : List (String × (ℚ × ℚ)))
      (cells : List (String × ECOCell)) (unused_cells : List String)
      (max_fanout : ℕ),
      (tile_to_nodes.map Prod.fst).Nodup →
      ∀ t ∈ (tie_off_run leakage_db tile_to_nodes placement_map cells
        unused_cells max_fanout).conbs,
        t.2.lo_fanout ≤ t.2.max_fanout ∧ t.2.hi_fanout ≤ t.2.max_fanout) ∧
    (((tie_off_run [] [("T0", [⟨0, 0, "conb0", "T0", "sky130_fd_sc_hd__conb_1"⟩])]
        [] [("u1", ⟨"inv", [("A", [])]⟩), ("u2", ⟨"inv", [("A", [])]⟩)]
        ["u1", "u2"] 1).conbs.map fun t => (t.1, t.2.lo_fanout, t.2.hi_fanout),
      (tie_off_run [] [("T0", [⟨0, 0, "conb0", "T0", "sky130_fd_sc_hd__conb_1"⟩])]
        [] [("u1", ⟨"inv", [("A", [])]⟩), ("u2", ⟨"inv", [("A", [])]⟩)]
        ["u1", "u2"] 1).warnings,
      (tie_off_run [] [("T0", [⟨0, 0, "conb0", "T0", "sky130_fd_sc_hd__conb_1"⟩])]
        [] [("u1", ⟨"inv", [("A", [])]⟩), ("u2", ⟨"inv", [("A", [])]⟩)]
        ["u1", "u2"] 1).tied_count) =
      ([("T0", 1, 0)], ["Tile T0 LO fanout exceeded"], 1)) := by
  constructor
  · intro leakage_db tile_to_nodes placement_map cells unused_cells max_fanout
      hnd
    have hinit : TieInv ⟨cells, assign_conb_per_tile tile_to_nodes max_fanout,
        [], 0⟩ :=
      ⟨(assign_conb_keys_sublist tile_to_nodes max_fanout).nodup hnd,
        assign_conb_bounded tile_to_nodes max_fanout⟩
    exact (foldl_inv TieInv _
      (fun s a hs => tieCell_inv leakage_db tile_to_nodes placement_map s a hs)
      unused_cells _ hinit).2
  · decide

/-- C7 witness: the invariant applied to the scenario's one-tile fabric. -/
theorem C7_witness :
    (([("T0", [(⟨0, 0, "conb0", "T0", "sky130_fd_sc_hd__conb_1"⟩ : FNode)])].map
      Prod.fst).Nodup ∧
    ∀ t ∈ (tie_off_run []
        [("T0", [⟨0, 0, "conb0", "T0", "sky130_fd_sc_hd__conb_1"⟩])] []
        [("u1", ⟨"inv", [("A", [])]⟩), ("u2", ⟨"inv", [("A", [])]⟩)]
        ["u1", "u2"] 1).conbs,
      t.2.lo_fanout ≤ t.2.max_fanout ∧ t.2.hi_fanout ≤ t.2.max_fanout) :=
  ⟨by decide,
   C7_tie_off_fanout_bounded.1 []
     [("T0", [⟨0, 0, "conb0", "T0", "sky130_fd_sc_hd__conb_1"⟩])] []
     [("u1", ⟨"inv", [("A", [])]⟩), ("u2", ⟨"inv", [("A", [])]⟩)]
     ["u1", "u2"] 1 (by decide)⟩

/-! ## C1/C8: the expanding-ring search -/

/-- Ring membership is exactly Chebyshev distance `r` (for `r ≥ 1`): the
square ring is complete and sound. -/
theorem mem_ringPoints_iff (s p : ℤ × ℤ) (r : ℕ) (hr : 1 ≤ r) :
    p ∈ ringPoints s r ↔ chebDist p s = r := by
  rcases p with ⟨px, py⟩
  rcases s with ⟨sx, sy⟩
  unfold ringPoints chebDist
  simp only [List.mem_append, List.mem_flatMap, List.mem_range, List.mem_cons,
    List.not_mem_nil, or_false, Prod.mk.injEq]
  constructor
  · rintro (⟨i, hi, h | h⟩ | ⟨j, hj, h | h⟩) <;>
      · obtain ⟨h1, h2⟩ := h
        omega
  · intro h
    by_cases hy : (py - sy).natAbs = r
    · by_cases hys : py - sy = (r : ℤ)
      · exact Or.inl ⟨(px - sx + r).toNat, by omega, Or.inl ⟨by omega, by omega⟩⟩
      · exact Or.inl ⟨(px - sx + r).toNat, by omega, Or.inr ⟨by omega, by omega⟩⟩
    · by_cases hxs : px - sx = (r : ℤ)
      · exact Or.inr ⟨(py - sy + r - 1).toNat, by omega,
          Or.inl ⟨by omega, by omega⟩⟩
      · exact Or.inr ⟨(py - sy + r - 1).toNat, by omega,
          Or.inr ⟨by omega, by omega⟩⟩

/-- A successful radius step returns an unoccupied in-bounds point of that
ring. -/
theorem ringStep_some (occ : Finset (ℤ × ℤ)) (g : Grid)
    (visited : Finset (ℤ × ℤ)) (s : ℤ × ℤ) (r : ℕ) (p : ℤ × ℤ)
    (h : ringStep occ g visited s r = some p) :
    p ∈ ringPoints s r ∧ inBounds g p = true ∧ p ∉ occ := by
  simp only [ringStep] at h
  cases hfind : (sortLe entryLe ((ringPts g visited s r).map fun q =>
      (distSq g s q, q))).find? fun e => !(decide (e.2 ∈ occ)) with
  | none =>
    rw [hfind] at h
    simp at h
  | some e =>
    rw [hfind] at h
    injection h with h
    subst h
    have hpred := List.find?_some hfind
    have hmem := List.mem_of_find?_eq_some hfind
    have hmem2 := (sortLe_perm entryLe _).subset hmem
    obtain ⟨q, hq, hqe⟩ := List.mem_map.mp hmem2
    have hq2 := List.mem_filter.mp hq
    rw [← hqe] at hpred ⊢
    simp only [Bool.not_eq_eq_eq_not, Bool.not_true, decide_eq_false_iff_not]
      at hpred
    simp only [Bool.and_eq_true] at hq2
    exact ⟨hq2.1, hq2.2.1, hpred⟩

/-- A failed radius step means every unvisited in-bounds point of the ring is
occupied. -/
theorem ringStep_none (occ : Finset (ℤ × ℤ)) (g : Grid)
    (visited : Finset (ℤ × ℤ)) (s : ℤ × ℤ) (r : ℕ)
    (h : ringStep occ g visited s r = none) :
    ∀ p ∈ ringPoints s r, inBounds g p = true → p ∉ visited → p ∈ occ := by
  intro p hp hb hv
  simp only [ringStep] at h
  cases hfind : (sortLe entryLe ((ringPts g visited s r).map fun q =>
      (distSq g s q, q))).find? fun e => !(decide (e.2 ∈ occ)) with
  | some e =>
    rw [hfind] at h
    simp at h
  | none =>
    have hall := List.find?_eq_none.mp hfind
    have hpm : p ∈ ringPts g visited s r := by
      unfold ringPts
      refine List.mem_filter.mpr ⟨hp, ?_⟩
      simp [hb, hv]
    have hpe : (distSq g s p, p) ∈ sortLe entryLe
        ((ringPts g visited s r).map fun q => (distSq g s q, q)) :=
      (sortLe_perm entryLe _).symm.subset (List.mem_map.mpr ⟨p, hpm, rfl⟩)
    have := hall _ hpe
    simp only [Bool.not_eq_eq_eq_not, Bool.not_true, decide_eq_false_iff_not,
      not_not] at this
    exact this

/-- The ring loop always returns an unoccupied in-bounds site. -/
theorem ringLoop_some_sound (occ : Finset (ℤ × ℤ)) (g : Grid) (s : ℤ × ℤ) :
    ∀ (fuel r : ℕ) (visited : Finset (ℤ × ℤ)) (p : ℤ × ℤ),
      ringLoop occ g s r fuel visited = some p →
      inBounds g p = true ∧ p ∉ occ := by
  intro fuel
  induction fuel with
  | zero =>
    intro r visited p hp
    simp [ringLoop] at hp
  | succ fuel ih =>
    intro r visited p hp
    rw [ringLoop] at hp
    cases hstep : ringStep occ g visited s r with
    | some p0 =>
      rw [hstep] at hp
      injection hp with hp
      subst hp
      exact (ringStep_some occ g visited s r p0 hstep).2
    | none =>
      rw [hstep] at hp
      exact ih (r + 1) _ p hp

/-- The full ring-loop specification: starting from radius `r` with all free
in-bounds sites at Chebyshev distance ≥ `r` and all visited points below `r`,
a returned site is free, in bounds, and Chebyshev-nearest among all free
in-bounds sites, and a failed loop pushes every free in-bounds site's
Chebyshev distance beyond `r + fuel`. -/
theorem ringLoop_spec (occ : Finset (ℤ × ℤ)) (g : Grid) (s : ℤ × ℤ) :
    ∀ (fuel r : ℕ) (visited : Finset (ℤ × ℤ)),
      1 ≤ r →
      (∀ v ∈ visited, chebDist v s < r) →
      (∀ q : ℤ × ℤ, inBounds g q = true → q ∉ occ → r ≤ chebDist q s) →
      ((∀ p, ringLoop occ g s r fuel visited = some p →
        inBounds g p = true ∧ p ∉ occ ∧
        ∀ q, inBounds g q = true → q ∉ occ → chebDist p s ≤ chebDist q s) ∧
      (ringLoop occ g s r fuel visited = none →
        ∀ q, inBounds g q = true → q ∉ occ → r + fuel ≤ chebDist q s)) := by
  intro fuel
  induction fuel with
  | zero =>
    intro r visited hr hvis hbelow
    constructor
    · intro p hp
      simp [ringLoop] at hp
    · intro _ q hq hqo
      simpa using hbelow q hq hqo
  | succ fuel ih =>
    intro r visited hr hvis hbelow
    have hnext : ringStep occ g visited s r = none →
        (∀ v ∈ visited ∪ (ringPts g visited s r).toFinset,
          chebDist v s < r + 1) ∧
        (∀ q : ℤ × ℤ, inBounds g q = true → q ∉ occ →
          r + 1 ≤ chebDist q s) := by
      intro hstep
      constructor
      · intro v hv
        rcases Finset.mem_union.mp hv with hv | hv
        · exact Nat.lt_succ_of_lt (hvis v hv)
        · have hv2 : v ∈ ringPts g visited s r := List.mem_toFinset.mp hv
          have hv3 := (List.mem_filter.mp hv2).1
          have := (mem_ringPoints_iff s v r hr).mp hv3
          omega
      · intro q hq hqo
        have hge := hbelow q hq hqo
        by_cases hcheb : chebDist q s = r
        · exfalso
          have hqr : q ∈ ringPoints s r := (mem_ringPoints_iff s q r hr).mpr hcheb
          have hqv : q ∉ visited := fun hqv => by
            have := hvis q hqv
            omega
          exact hqo (ringStep_none occ g visited s r hstep q hqr hq hqv)
        · omega
    constructor
    · intro p hp
      rw [ringLoop] at hp
      cases hstep : ringStep occ g visited s r with
      | some p0 =>
        rw [hstep] at hp
        injection hp with hp
        subst hp
        obtain ⟨hmem, hb, ho⟩ := ringStep_some occ g visited s r p0 hstep
        have hcheb := (mem_ringPoints_iff s p0 r hr).mp hmem
        refine ⟨hb, ho, ?_⟩
        intro q hq hqo
        have := hbelow q hq hqo
        omega
      | none =>
        rw [hstep] at hp
        obtain ⟨hv', hb'⟩ := hnext hstep
        exact (ih (r + 1) _ (by omega) hv' hb').1 p hp
    · intro hp q hq hqo
      rw [ringLoop] at hp
      cases hstep : ringStep occ g visited s r with
      | some p0 =>
        rw [hstep] at hp
        simp at hp
      | none =>
        rw [hstep] at hp
        obtain ⟨hv', hb'⟩ := hnext hstep
        have := (ih (r + 1) _ (by omega) hv' hb').2 hp q hq hqo
        omega

/-- The fallback scan enumerates exactly the in-bounds sites. -/
theorem mem_scan_iff (g : Grid) (p : ℤ × ℤ) :
    p ∈ ((List.range g.sites_y).flatMap fun (sy : ℕ) =>
      (List.range g.sites_x).map fun (sx : ℕ) => ((sx : ℤ), (sy : ℤ))) ↔
    inBounds g p = true := by
  rcases p with ⟨px, py⟩
  constructor
  · intro h
    obtain ⟨sy, hsy, hmem⟩ := List.mem_flatMap.mp h
    obtain ⟨sx, hsx, heq⟩ := List.mem_map.mp hmem
    rw [List.mem_range] at hsy hsx
    rw [Prod.mk.injEq] at heq
    simp only [inBounds, Bool.and_eq_true, decide_eq_true_eq]
    obtain ⟨h1, h2⟩ := heq
    refine ⟨⟨⟨?_, ?_⟩, ?_⟩, ?_⟩ <;> omega
  · intro h
    simp only [inBounds, Bool.and_eq_true, decide_eq_true_eq] at h
    have h1 : ((px, py) : ℤ × ℤ) ∈ (List.range g.sites_x).map
        (fun (sx : ℕ) => ((sx : ℤ), ((py.toNat : ℕ) : ℤ))) := by
      refine List.mem_map.mpr ?_
      refine ⟨px.toNat, List.mem_range.mpr (by omega), ?_⟩
      rw [Prod.mk.injEq]
      exact ⟨by omega, by omega⟩
    refine List.mem_flatMap.mpr ?_
    exact ⟨py.toNat, List.mem_range.mpr (by omega), h1⟩

/-- C8: with the start site inside the grid, `find_nearest_free` raises
(returns `none`) exactly when every site of the grid is occupied; whenever a
free site exists it returns a free in-bounds site without error. -/
theorem C8_find_nearest_free_error_iff_full (g : Grid)
    (occ : Finset (ℤ × ℤ)) (s : ℤ × ℤ) (hs : inBounds g s = true) :
    ((∀ q, inBounds g q = true → q ∈ occ) →
      find_nearest_free s occ g = none) ∧
    ((∃ q, inBounds g q = true ∧ q ∉ occ) →
      ∃ p, find_nearest_free s occ g = some p ∧ inBounds g p = true ∧
        p ∉ occ) := by
  constructor
  · intro hall
    unfold find_nearest_free
    have hso : s ∈ occ := hall s hs
    simp only [if_pos hso]
    cases hloop : ringLoop occ g s 1 (max g.sites_x g.sites_y) ∅ with
    | some p =>
      exfalso
      obtain ⟨hb, ho⟩ := ringLoop_some_sound occ g s _ 1 ∅ p hloop
      exact ho (hall p hb)
    | none =>
      unfold fallbackScan
      refine List.find?_eq_none.mpr ?_
      intro x hx
      have hxb := (mem_scan_iff g x).mp hx
      simp [hall x hxb]
  · rintro ⟨q, hqb, hqo⟩
    unfold find_nearest_free
    by_cases hso : s ∈ occ
    · simp only [if_pos hso]
      cases hloop : ringLoop occ g s 1 (max g.sites_x g.sites_y) ∅ with
      | some p =>
        exact ⟨p, rfl, (ringLoop_some_sound occ g s _ 1 ∅ p hloop).1,
          (ringLoop_some_sound occ g s _ 1 ∅ p hloop).2⟩
      | none =>
        unfold fallbackScan
        cases hfind : ((List.range g.sites_y).flatMap fun (sy : ℕ) =>
            (List.range g.sites_x).map fun (sx : ℕ) =>
              ((sx : ℤ), (sy : ℤ))).find? (fun p => !(decide (p ∈ occ))) with
        | none =>
          exfalso
          have := List.find?_eq_none.mp hfind q ((mem_scan_iff g q).mpr hqb)
          simp [hqo] at this
        | some e =>
          refine ⟨e, rfl, ?_, ?_⟩
          · exact (mem_scan_iff g e).mp (List.mem_of_find?_eq_some hfind)
          · have := List.find?_some hfind
            simpa using this
    · exact ⟨s, by simp [hso], hs, hso⟩

/-- C8 witness: a fully occupied 1×1 grid raises; a 2×2 grid with one
occupied site succeeds. -/
theorem C8_witness :
    find_nearest_free (0, 0) ({((0 : ℤ), (0 : ℤ))} : Finset (ℤ × ℤ))
      ⟨1, 1, 1, 1⟩ = none ∧
    (∃ p, find_nearest_free (0, 0) ({((0 : ℤ), (0 : ℤ))} : Finset (ℤ × ℤ))
      ⟨2, 2, 1, 1⟩ = some p ∧ inBounds ⟨2, 2, 1, 1⟩ p = true ∧
      p ∉ ({((0 : ℤ), (0 : ℤ))} : Finset (ℤ × ℤ))) := by
  constructor
  · refine (C8_find_nearest_free_error_iff_full ⟨1, 1, 1, 1⟩ _ _ (by decide)).1
      ?_
    intro q hq
    rcases q with ⟨qx, qy⟩
    simp only [inBounds, Bool.and_eq_true, decide_eq_true_eq] at hq
    have h1 : qx = 0 := by omega
    have h2 : qy = 0 := by omega
    subst h1
    subst h2
    simp
  · exact (C8_find_nearest_free_error_iff_full ⟨2, 2, 1, 1⟩ _ _ (by decide)).2
      ⟨(0, 1), by decide, by decide⟩

/-- C1 (amended): whenever the start site is in the grid and some in-bounds
site is free, `find_nearest_free` returns a free in-bounds site whose
CHEBYSHEV site distance to the start is minimal among all free in-bounds
sites.  (Global Euclidean-micron minimality fails: see the
counterexample.) -/
theorem C1_find_nearest_free_chebyshev_minimal (g : Grid)
    (occ : Finset (ℤ × ℤ)) (s : ℤ × ℤ) (hs : inBounds g s = true)
    (hfree : ∃ q, inBounds g q = true ∧ q ∉ occ) :
    ∃ p, find_nearest_free s occ g = some p ∧ inBounds g p = true ∧
      p ∉ occ ∧
      ∀ q, inBounds g q = true → q ∉ occ → chebDist s p ≤ chebDist s q := by
  have hcheb_comm : ∀ a b : ℤ × ℤ, chebDist a b = chebDist b a := by
    intro a b
    unfold chebDist
    omega
  unfold find_nearest_free
  by_cases hso : s ∈ occ
  · simp only [if_pos hso]
    have hbelow : ∀ q : ℤ × ℤ, inBounds g q = true → q ∉ occ →
        1 ≤ chebDist q s := by
      intro q hq hqo
      by_contra hlt
      push_neg at hlt
      have h0 : chebDist q s = 0 := by omega
      have : q = s := by
        rcases q with ⟨qx, qy⟩
        rcases s with ⟨sx, sy⟩
        unfold chebDist at h0
        rw [Prod.mk.injEq]
        constructor <;> omega
      rw [this] at hqo
      exact hqo hso
    have hspec := ringLoop_spec occ g s (max g.sites_x g.sites_y) 1 ∅
      (le_refl 1) (by simp) hbelow
    cases hloop : ringLoop occ g s 1 (max g.sites_x g.sites_y) ∅ with
    | some p =>
      obtain ⟨hb, ho, hmin⟩ := hspec.1 p hloop
      refine ⟨p, rfl, hb, ho, ?_⟩
      intro q hq hqo
      rw [hcheb_comm s p, hcheb_comm s q]
      exact hmin q hq hqo
    | none =>
      exfalso
      obtain ⟨q, hq, hqo⟩ := hfree
      have hbig := hspec.2 hloop q hq hqo
      rcases q with ⟨qx, qy⟩
      rcases s with ⟨sx, sy⟩
      simp only [inBounds, Bool.and_eq_true, decide_eq_true_eq] at hq hs
      unfold chebDist at hbig
      rcases hq with ⟨⟨⟨hq1, hq2⟩, hq3⟩, hq4⟩
      rcases hs with ⟨⟨⟨hs1, hs2⟩, hs3⟩, hs4⟩
      omega
  · simp only [if_neg hso]
    refine ⟨s, rfl, hs, hso, ?_⟩
    intro q _ _
    have : chebDist s s = 0 := by
      unfold chebDist
      omega
    omega

/-- C1 witness: a 2×2 grid with the start site occupied. -/
theorem C1_witness :
    inBounds ⟨2, 2, 1, 1⟩ ((0 : ℤ), (0 : ℤ)) = true ∧
    (∃ q, inBounds ⟨2, 2, 1, 1⟩ q = true ∧
      q ∉ ({((0 : ℤ), (0 : ℤ))} : Finset (ℤ × ℤ))) ∧
    (∃ p, find_nearest_free (0, 0) ({((0 : ℤ), (0 : ℤ))} : Finset (ℤ × ℤ))
        ⟨2, 2, 1, 1⟩ = some p ∧ inBounds ⟨2, 2, 1, 1⟩ p = true ∧
      p ∉ ({((0 : ℤ), (0 : ℤ))} : Finset (ℤ × ℤ)) ∧
      ∀ q, inBounds ⟨2, 2, 1, 1⟩ q = true →
        q ∉ ({((0 : ℤ), (0 : ℤ))} : Finset (ℤ × ℤ)) →
        chebDist (0, 0) p ≤ chebDist (0, 0) q) :=
  ⟨by decide, ⟨(0, 1), by decide, by decide⟩,
   C1_find_nearest_free_chebyshev_minimal ⟨2, 2, 1, 1⟩ _ _ (by decide)
     ⟨(0, 1), by decide, by decide⟩⟩

/-- C1 counterexample: on a 5×3 grid with 1µm × 10µm sites, start (2,1)
occupied along with all of ring 1 except (2,2), the search returns (2,2) at
10µm from the start, although the free in-bounds site (4,1) lies only 2µm
away: the heap orders candidates by true Euclidean distance only within one
square ring, so the returned site is not Euclidean-minimal over the whole
grid.  (`distSq` compares as the true micron distance, squaring being
strictly monotone.) -/
theorem C1_counterexample :
    find_nearest_free (2, 1)
      ({((2 : ℤ), (1 : ℤ)), (1, 0), (2, 0), (3, 0), (1, 1), (3, 1), (1, 2),
        (3, 2)} : Finset (ℤ × ℤ)) ⟨5, 3, 1, 10⟩ = some (2, 2) ∧
    inBounds ⟨5, 3, 1, 10⟩ ((4 : ℤ), (1 : ℤ)) = true ∧
    ((4 : ℤ), (1 : ℤ)) ∉
      ({((2 : ℤ), (1 : ℤ)), (1, 0), (2, 0), (3, 0), (1, 1), (3, 1), (1, 2),
        (3, 2)} : Finset (ℤ × ℤ)) ∧
    distSq ⟨5, 3, 1, 10⟩ (2, 1) (4, 1) < distSq ⟨5, 3, 1, 10⟩ (2, 1) (2, 2) := by
  refine ⟨?_, by decide, by decide, ?_⟩
  · norm_num [find_nearest_free, ringLoop, ringStep, ringPts, ringPoints,
      sortLe, insertLe, entryLe, distSq, inBounds, List.range_succ]
  · norm_num [distSq]

/-! ## C2: seed + grow places every cell exactly once on distinct sites -/

/-- Whatever path `find_nearest_free` takes, a returned site is free. -/
theorem find_nearest_free_not_occ (s : ℤ × ℤ) (occ : Finset (ℤ × ℤ))
    (g : Grid) (p : ℤ × ℤ) (h : find_nearest_free s occ g = some p) :
    p ∉ occ := by
  unfold find_nearest_free at h
  by_cases hso : s ∈ occ
  · simp only [if_pos hso] at h
    cases hloop : ringLoop occ g s 1 (max g.sites_x g.sites_y) ∅ with
    | some p0 =>
      rw [hloop] at h
      injection h with h
      subst h
      exact (ringLoop_some_sound occ g s _ 1 ∅ p0 hloop).2
    | none =>
      rw [hloop] at h
      unfold fallbackScan at h
      have := List.find?_some h
      simpa using this
  · simp only [if_neg hso] at h
    injection h with h
    subst h
    exact hso

/-- The seed/grow state invariant: all recorded sites (placements and pins)
are pairwise distinct and inside `occupied`, and the placement keys are
duplicate-free. -/
def PlaceInv (st : PlaceState) : Prop :=
  ((st.placements.map Prod.snd) ++ (st.pin_sites.map Prod.snd)).Nodup ∧
  (∀ x ∈ st.placements.map Prod.snd, x ∈ st.occupied) ∧
  (∀ x ∈ st.pin_sites.map Prod.snd, x ∈ st.occupied) ∧
  (st.placements.map Prod.fst).Nodup

/-- Claiming a fresh site for a new cell preserves the invariant. -/
theorem place_cell_inv (st : PlaceState) (c : String) (cs : ℤ × ℤ)
    (hinv : PlaceInv st) (hco : cs ∉ st.occupied)
    (hk : c ∉ st.placements.map Prod.fst) :
    PlaceInv ⟨insert cs st.occupied, st.placements ++ [(c, cs)],
      st.pin_sites⟩ := by
  obtain ⟨hnd, hpo, hso, hknd⟩ := hinv
  refine ⟨?_, ?_, ?_, ?_⟩
  · have hperm : ((st.placements ++ [(c, cs)]).map Prod.snd ++
        st.pin_sites.map Prod.snd).Perm
        (cs :: (st.placements.map Prod.snd ++ st.pin_sites.map Prod.snd)) := by
      simp only [List.map_append, List.map_cons, List.map_nil]
      rw [List.append_assoc]
      exact List.perm_middle
    rw [hperm.nodup_iff]
    refine List.nodup_cons.mpr ⟨?_, hnd⟩
    intro hmem
    rcases List.mem_append.mp hmem with hmem | hmem
    · exact hco (hpo cs hmem)
    · exact hco (hso cs hmem)
  · intro x hx
    simp only [List.map_append, List.map_cons, List.map_nil,
      List.mem_append, List.mem_cons, List.not_mem_nil, or_false] at hx
    rcases hx with hx | hx
    · exact Finset.mem_insert_of_mem (hpo x hx)
    · rw [hx]
      exact Finset.mem_insert_self cs st.occupied
  · intro x hx
    exact Finset.mem_insert_of_mem (hso x hx)
  · have hperm : ((st.placements ++ [(c, cs)]).map Prod.fst).Perm
        (c :: st.placements.map Prod.fst) := by
      simp only [List.map_append, List.map_cons, List.map_nil]
      exact List.perm_append_comm.trans (List.Perm.refl _)
    rw [hperm.nodup_iff]
    exact List.nodup_cons.mpr ⟨hk, hknd⟩

/-- Claiming a fresh site for a pin preserves the invariant. -/
theorem place_pin_inv (st : PlaceState) (pn : String) (s : ℤ × ℤ)
    (hinv : PlaceInv st) (hco : s ∉ st.occupied) :
    PlaceInv ⟨insert s st.occupied, st.placements,
      st.pin_sites ++ [(pn, s)]⟩ := by
  obtain ⟨hnd, hpo, hso, hknd⟩ := hinv
  refine ⟨?_, ?_, ?_, hknd⟩
  · have hperm : (st.placements.map Prod.snd ++
        (st.pin_sites ++ [(pn, s)]).map Prod.snd).Perm
        (s :: (st.placements.map Prod.snd ++ st.pin_sites.map Prod.snd)) := by
      simp only [List.map_append, List.map_cons, List.map_nil]
      rw [← List.append_assoc]
      have h0 : ((st.placements.map Prod.snd ++ st.pin_sites.map Prod.snd) ++
          s :: ([] : List (ℤ × ℤ))).Perm
          (s :: ((st.placements.map Prod.snd ++ st.pin_sites.map Prod.snd) ++
            [])) := List.perm_middle
      simpa using h0
    rw [hperm.nodup_iff]
    refine List.nodup_cons.mpr ⟨?_, hnd⟩
    intro hmem
    rcases List.mem_append.mp hmem with hmem | hmem
    · exact hco (hpo s hmem)
    · exact hco (hso s hmem)
  · intro x hx
    exact Finset.mem_insert_of_mem (hpo x hx)
  · intro x hx
    simp only [List.map_append, List.map_cons, List.map_nil,
      List.mem_append, List.mem_cons, List.not_mem_nil, or_false] at hx
    rcases hx with hx | hx
    · exact Finset.mem_insert_of_mem (hso x hx)
    · rw [hx]
      exact Finset.mem_insert_self s st.occupied

/-- `foldlM` invariant threading that also hands the step the membership of
the element in the folded list. -/
theorem foldlM_option_inv_mem {σ α : Type} (Inv : σ → Prop) (l : List α)
    (f : σ → α → Option σ)
    (hf : ∀ s a s', a ∈ l → Inv s → f s a = some s' → Inv s') :
    ∀ (s s' : σ), Inv s → l.foldlM f s = some s' → Inv s' := by
  induction l with
  | nil =>
    intro s s' h he
    simp only [List.foldlM_nil, Option.pure_def, Option.some.injEq] at he
    rwa [← he]
  | cons a t ih =>
    intro s s' h he
    rw [List.foldlM_cons] at he
    cases hfa : f s a with
    | none =>
      simp [hfa] at he
    | some s1 =>
      simp only [hfa, Option.bind_eq_bind, Option.some_bind] at he
      exact ih (fun s a s' ha => hf s a s' (List.mem_cons_of_mem _ ha))
        s1 s' (hf s a s1 (List.mem_cons_self a t) h hfa) he

/-- A successful lookup exposes its association pair. -/
theorem lookup_pair_mem {β : Type} {p : List (String × β)} {k : String}
    {v : β} (h : p.lookup k = some v) : (k, v) ∈ p := by
  induction p with
  | nil => simp at h
  | cons kv t ih =>
    rcases kv with ⟨k0, v0⟩
    by_cases hk : k = k0
    · subst hk
      rw [List.lookup] at h
      simp at h
      subst h
      exact List.mem_cons_self _ _
    · have hkk : (k == k0) = false := beq_eq_false_iff_ne.mpr hk
      rw [List.lookup] at h
      simp only [hkk] at h
      exact List.mem_cons_of_mem _ (ih h)

/-- Every cell the seed stage tries to place is a string member of some
net. -/
theorem port_to_cells_mem (ports : List (String × List String))
    (nets : List (String × List NetMember)) (pname : String) (c : String)
    (h : c ∈ port_to_cells ports nets pname) :
    ∃ n ∈ nets, c ∈ strMembers n.2 := by
  unfold port_to_cells at h
  cases hp : ports.lookup pname with
  | none =>
    rw [hp] at h
    simp at h
  | some bits =>
    rw [hp] at h
    obtain ⟨b, _, hb⟩ := List.mem_flatMap.mp h
    cases hn : nets.lookup b with
    | none =>
      rw [hn] at hb
      simp at hb
    | some ms =>
      rw [hn] at hb
      exact ⟨(b, ms), lookup_pair_mem hn, hb⟩

/-- The extended seed invariant: the placer state invariant plus every placed
key being a cell of the logical netlist. -/
def SeedInv (cells : List String) (st : PlaceState) : Prop :=
  PlaceInv st ∧ ∀ k ∈ st.placements.map Prod.fst, k ∈ cells

/-- `seedOneCell` preserves the extended invariant for cells of the
netlist. -/
theorem seedOneCell_inv (g : Grid) (pinSite : ℤ × ℤ) (cells : List String)
    (st st' : PlaceState) (c : String) (hc : c ∈ cells)
    (hinv : SeedInv cells st) (h : seedOneCell g pinSite st c = some st') :
    SeedInv cells st' := by
  unfold seedOneCell at h
  by_cases hpl : (st.placements.lookup c).isSome = true
  · rw [if_pos hpl] at h
    injection h with h
    subst h
    exact hinv
  · rw [if_neg hpl] at h
    cases hf : find_nearest_free pinSite st.occupied g with
    | none =>
      rw [hf] at h
      simp at h
    | some cs =>
      rw [hf] at h
      injection h with h
      subst h
      have hk : c ∉ st.placements.map Prod.fst := by
        intro hmem
        exact hpl (lookup_isSome_iff.mpr hmem)
      refine ⟨place_cell_inv st c cs hinv.1
        (find_nearest_free_not_occ _ _ _ _ hf) hk, ?_⟩
      intro k hkm
      simp only [List.map_append, List.map_cons, List.map_nil,
        List.mem_append, List.mem_cons, List.not_mem_nil, or_false] at hkm
      rcases hkm with hkm | hkm
      · exact hinv.2 k hkm
      · rw [hkm]
        exact hc

/-- `seedPin` preserves the extended invariant when the netlist's string net
members are cells. -/
theorem seedPin_inv (g : Grid) (ports : List (String × List String))
    (nets : List (String × List NetMember)) (cells : List String)
    (hmem : ∀ n ∈ nets, ∀ c ∈ strMembers n.2, c ∈ cells)
    (st st' : PlaceState) (pin : Pin) (hinv : SeedInv cells st)
    (h : seedPin g ports nets st pin = some st') : SeedInv cells st' := by
  simp only [seedPin] at h
  cases hf : find_nearest_free (xy_to_site g pin.x_um pin.y_um) st.occupied g
    with
  | none =>
    rw [hf] at h
    simp at h
  | some s =>
    rw [hf] at h
    simp only [] at h
    refine foldlM_option_inv_mem (SeedInv cells)
      (port_to_cells ports nets pin.name) (seedOneCell g s) ?_ _ st' ?_ h
    · intro s1 a s1' ha hin he
      obtain ⟨n, hn, hcm⟩ := port_to_cells_mem ports nets pin.name a ha
      exact seedOneCell_inv g s cells s1 s1' a (hmem n hn a hcm) hin he
    · exact ⟨place_pin_inv st pin.name s hinv.1
        (find_nearest_free_not_occ _ _ _ _ hf), hinv.2⟩

/-- `run_seed` establishes the extended invariant from the empty state. -/
theorem run_seed_inv (f : Fabric) (pins : List Pin)
    (ports : List (String × List String))
    (nets : List (String × List NetMember)) (cells : List String)
    (hmem : ∀ n ∈ nets, ∀ c ∈ strMembers n.2, c ∈ cells) (st' : PlaceState)
    (h : run_seed f pins ports nets ⟨∅, [], []⟩ = some st') :
    SeedInv cells st' := by
  unfold run_seed at h
  refine foldlM_option_inv (SeedInv cells) _ ?_ _ _ st' ?_ h
  · intro s a s' hin he
    exact seedPin_inv (fabricGrid f) ports nets cells hmem s s' a hin he
  · exact ⟨⟨by simp, by simp, by simp, by simp⟩, by simp⟩

/-- A fold whose step always returns one of its two arguments lands on the
seed or on a list element. -/
theorem foldl_choice_mem {α : Type} (g : α → α → α)
    (hg : ∀ b c, g b c = b ∨ g b c = c) :
    ∀ (l : List α) (a : α), l.foldl g a = a ∨ l.foldl g a ∈ l := by
  intro l
  induction l with
  | nil =>
    intro a
    left
    rfl
  | cons x t ih =>
    intro a
    rw [List.foldl_cons]
    rcases ih (g a x) with h | h
    · rcases hg a x with h2 | h2
      · left
        rw [h, h2]
      · right
        rw [h, h2]
        exact List.mem_cons_self x t
    · right
      exact List.mem_cons_of_mem _ h

/-- A positive `foldl max 0` is attained by some list element. -/
theorem foldl_max_mem (l : List ℕ) (h : 0 < l.foldl max 0) :
    l.foldl max 0 ∈ l := by
  rcases foldl_choice_mem max (fun b c => by
    rcases Nat.le_total b c with hbc | hbc
    · right
      exact Nat.max_eq_right hbc
    · left
      exact Nat.max_eq_left hbc) l 0 with h0 | h0
  · rw [h0] at h
    exact absurd h (lt_irrefl 0)
  · exact h0

/-- `argmaxFirst` on a nonempty list returns one of its elements. -/
theorem argmaxFirst_mem (f : String → ℕ) (l : List String) (hl : l ≠ []) :
    ∃ x, argmaxFirst f l = some x ∧ x ∈ l := by
  cases l with
  | nil => exact absurd rfl hl
  | cons a t =>
    refine ⟨_, rfl, ?_⟩
    rcases foldl_choice_mem (fun best c => if f best < f c then c else best)
      (fun b c => by
        by_cases h : f b < f c
        · right
          simp [h]
        · left
          simp [h]) t a with h | h
    · rw [h]
      exact List.mem_cons_self a t
    · exact List.mem_cons_of_mem _ h

/-- The grow stage always picks an unplaced cell. -/
theorem growPick_mem (edges : List (String × String)) (st : PlaceState)
    (unplaced : List String) (hne : unplaced ≠ []) :
    growPick edges st unplaced ∈ unplaced := by
  unfold growPick
  by_cases hm : 0 < maxBucket edges st unplaced
  · rw [if_pos hm]
    have hmem : maxBucket edges st unplaced ∈
        unplaced.map (placedCount edges st) := foldl_max_mem _ hm
    obtain ⟨c0, hc0, hc0v⟩ := List.mem_map.mp hmem
    have hfil : (unplaced.filter
        fun c => placedCount edges st c = maxBucket edges st unplaced) ≠ [] := by
      intro hnil
      have : c0 ∈ (unplaced.filter
          fun c => placedCount edges st c = maxBucket edges st unplaced) :=
        List.mem_filter.mpr ⟨hc0, by simp [hc0v]⟩
      rw [hnil] at this
      simp at this
    obtain ⟨x, hx, hxm⟩ := argmaxFirst_mem _ _ hfil
    rw [hx]
    exact List.mem_of_mem_filter hxm
  · rw [if_neg hm]
    obtain ⟨x, hx, hxm⟩ := argmaxFirst_mem _ _ hne
    rw [hx]
    exact hxm

/-- The grow loop invariant: the placer invariant, keys among the netlist
cells, every cell either placed or still pending, pending cells unplaced,
and the pending list duplicate-free inside the netlist. -/
def GrowInv (cells unplaced : List String) (st : PlaceState) : Prop :=
  PlaceInv st ∧
  (∀ k ∈ st.placements.map Prod.fst, k ∈ cells) ∧
  (∀ c ∈ cells, c ∈ st.placements.map Prod.fst ∨ c ∈ unplaced) ∧
  (∀ c ∈ unplaced, c ∉ st.placements.map Prod.fst) ∧
  unplaced.Nodup ∧
  (∀ c ∈ unplaced, c ∈ cells)

/-- The grow loop's postcondition: from the invariant, a successful run
keeps the placer invariant, keeps keys among the cells, and covers every
cell. -/
theorem run_grow_aux_post (g : Grid) (edges : List (String × String))
    (cells : List String) :
    ∀ (fuel : ℕ) (unplaced : List String) (st st' : PlaceState),
    GrowInv cells unplaced st →
    run_grow_aux g edges fuel unplaced st = some st' →
    PlaceInv st' ∧ (∀ k ∈ st'.placements.map Prod.fst, k ∈ cells) ∧
    (∀ c ∈ cells, c ∈ st'.placements.map Prod.fst) := by
  intro fuel
  induction fuel with
  | zero =>
    intro unplaced st st' hinv h
    simp only [run_grow_aux] at h
    by_cases he : unplaced.isEmpty
    · rw [if_pos he] at h
      injection h with h
      subst h
      have hempty : unplaced = [] := List.isEmpty_iff.mp he
      refine ⟨hinv.1, hinv.2.1, ?_⟩
      intro c hc
      rcases hinv.2.2.1 c hc with hk | hk
      · exact hk
      · rw [hempty] at hk
        simp at hk
    · rw [if_neg he] at h
      simp at h
  | succ fuel ih =>
    intro unplaced st st' hinv h
    simp only [run_grow_aux] at h
    by_cases he : unplaced.isEmpty
    · rw [if_pos he] at h
      injection h with h
      subst h
      have hempty : unplaced = [] := List.isEmpty_iff.mp he
      refine ⟨hinv.1, hinv.2.1, ?_⟩
      intro c hc
      rcases hinv.2.2.1 c hc with hk | hk
      · exact hk
      · rw [hempty] at hk
        simp at hk
    · rw [if_neg he] at h
      have hne : unplaced ≠ [] := by
        intro h0
        rw [h0] at he
        exact he rfl
      have hcell : growPick edges st unplaced ∈ unplaced :=
        growPick_mem edges st unplaced hne
      obtain ⟨hpi, hkc, hcov, hup, hnd, huc⟩ := hinv
      split at h
      · simp at h
      · rename_i p hf
        have hpo : p ∉ st.occupied := find_nearest_free_not_occ _ _ _ _ hf
        have hcellk : growPick edges st unplaced ∉
            st.placements.map Prod.fst := hup _ hcell
        refine ih (unplaced.erase (growPick edges st unplaced)) _ st' ?_ h
        refine ⟨place_cell_inv st _ p hpi hpo hcellk, ?_, ?_, ?_, ?_, ?_⟩
        · intro k hk
          simp only [List.map_append, List.map_cons, List.map_nil,
            List.mem_append, List.mem_cons, List.not_mem_nil, or_false] at hk
          rcases hk with hk | hk
          · exact hkc k hk
          · rw [hk]
            exact huc _ hcell
        · intro c hc
          rcases hcov c hc with hk | hk
          · left
            simp only [List.map_append, List.map_cons, List.map_nil,
              List.mem_append, List.mem_cons, List.not_mem_nil, or_false]
            exact Or.inl hk
          · by_cases hcc : c = growPick edges st unplaced
            · left
              simp only [List.map_append, List.map_cons, List.map_nil,
                List.mem_append, List.mem_cons, List.not_mem_nil, or_false]
              exact Or.inr hcc
            · right
              exact (List.mem_erase_of_ne hcc).mpr hk
        · intro c hc
          have hcu : c ∈ unplaced := List.mem_of_mem_erase hc
          have hccell : c ≠ growPick edges st unplaced :=
            (hnd.mem_erase_iff.mp hc).1
          simp only [List.map_append, List.map_cons, List.map_nil,
            List.mem_append, List.mem_cons, List.not_mem_nil, or_false]
          push_neg
          exact ⟨hup c hcu, hccell⟩
        · exact hnd.erase _
        · intro c hc
          exact huc c (List.mem_of_mem_erase hc)

/-- Entering the grow loop from a seed-stage state establishes the grow
invariant for `unplaced = cells.filter (not placed)`. -/
theorem growInv_of_seedInv (cells : List String) (hcells : cells.Nodup)
    (st : PlaceState) (hinv : SeedInv cells st) :
    GrowInv cells
      (cells.filter fun c => !(st.placements.lookup c).isSome) st := by
  obtain ⟨hpi, hkc⟩ := hinv
  refine ⟨hpi, hkc, ?_, ?_, hcells.filter _, ?_⟩
  · intro c hc
    by_cases hs : (st.placements.lookup c).isSome
    · left
      exact lookup_isSome_iff.mp hs
    · right
      refine List.mem_filter.mpr ⟨hc, ?_⟩
      simp [hs]
  · intro c hc
    have hs := (List.mem_filter.mp hc).2
    simp only [Bool.not_eq_true'] at hs
    intro hk
    rw [lookup_isSome_iff.mpr hk] at hs
    exact absurd hs (by simp)
  · intro c hc
    exact List.mem_of_mem_filter hc

/-- C2: for every fabric and logical netlist whose net members are cells of
the design, after `run_seed` and then `run_grow` both complete without
error, every cell has an assigned site, the placements map has exactly one
entry per cell, and all assigned sites together with the fixed-pin sites are
pairwise distinct. -/
theorem C2_seed_grow_complete_distinct (f : Fabric) (pins : List Pin)
    (ports : List (String × List String))
    (nets : List (String × List NetMember)) (cells : List String)
    (hmem : ∀ n ∈ nets, ∀ c ∈ strMembers n.2, c ∈ cells)
    (hcells : cells.Nodup) (st1 st2 : PlaceState)
    (h1 : run_seed f pins ports nets ⟨∅, [], []⟩ = some st1)
    (h2 : run_grow (fabricGrid f) (build_adjacency nets) cells st1 = some st2) :
    (∀ c ∈ cells, c ∈ st2.placements.map Prod.fst) ∧
    st2.placements.length = cells.length ∧
    ((st2.placements.map Prod.snd) ++ (st2.pin_sites.map Prod.snd)).Nodup := by
  have hseed : SeedInv cells st1 :=
    run_seed_inv f pins ports nets cells hmem st1 h1
  unfold run_grow at h2
  have hgrow := run_grow_aux_post (fabricGrid f) (build_adjacency nets) cells
    _ _ st1 st2 (growInv_of_seedInv cells hcells st1 hseed) h2
  obtain ⟨hpi, hkc, hcov⟩ := hgrow
  refine ⟨hcov, ?_, hpi.1⟩
  have hknd : (st2.placements.map Prod.fst).Nodup := hpi.2.2.2
  have hfeq : (st2.placements.map Prod.fst).toFinset = cells.toFinset := by
    ext x
    simp only [List.mem_toFinset]
    exact ⟨fun hx => hkc x hx, fun hx => hcov x hx⟩
  have hlen1 : (st2.placements.map Prod.fst).toFinset.card =
      (st2.placements.map Prod.fst).length :=
    List.toFinset_card_of_nodup hknd
  have hlen2 : cells.toFinset.card = cells.length :=
    List.toFinset_card_of_nodup hcells
  have : (st2.placements.map Prod.fst).length = cells.length := by
    rw [← hlen1, ← hlen2, hfeq]
  simpa using this

/-- C2 witness: a 2×2-site fabric with one FIXED pin driving net `n1` with
single cell `a`; the seed stage places the pin at site (0,0) and cell `a` at
(0,1), the grow stage finds nothing left to place, and the claim's
conclusions hold for the resulting state. -/
theorem C2_witness :
    (∀ c ∈ ["a"],
      c ∈ ([("a", ((0 : ℤ), (1 : ℤ)))] : Placement).map Prod.fst) ∧
    ([("a", ((0 : ℤ), (1 : ℤ)))] : Placement).length =
      (["a"] : List String).length ∧
    (([("a", ((0 : ℤ), (1 : ℤ)))] : Placement).map Prod.snd ++
      ([("P", ((0 : ℤ), (0 : ℤ)))] : List (String × (ℤ × ℤ))).map
        Prod.snd).Nodup := by
  have h1 : run_seed ⟨1, 1, 1, 1, 2, 2⟩ [⟨"P", 0, 0, "FIXED"⟩]
      [("P", ["n1"])] [("n1", [NetMember.cell "a"])] ⟨∅, [], []⟩ =
      some ⟨insert ((0 : ℤ), (1 : ℤ)) (insert (0, 0) ∅), [("a", (0, 1))],
        [("P", (0, 0))]⟩ := by
    norm_num [run_seed, seedPin, seedOneCell, xy_to_site, pyRound, fabricGrid,
      find_nearest_free, ringLoop, ringStep, ringPts, ringPoints, sortLe,
      insertLe, entryLe, distSq, inBounds, port_to_cells, strMembers,
      List.range_succ, List.lookup, List.foldlM_cons, List.foldlM_nil,
      List.filterMap_cons, List.filterMap_nil]
  have h2 : run_grow (fabricGrid ⟨1, 1, 1, 1, 2, 2⟩)
      (build_adjacency [("n1", [NetMember.cell "a"])]) ["a"]
      ⟨insert ((0 : ℤ), (1 : ℤ)) (insert (0, 0) ∅), [("a", (0, 1))],
        [("P", (0, 0))]⟩ =
      some ⟨insert ((0 : ℤ), (1 : ℤ)) (insert (0, 0) ∅), [("a", (0, 1))],
        [("P", (0, 0))]⟩ := by
    norm_num [run_grow, run_grow_aux, growPick, maxBucket, placedCount,
      fabricGrid, argmaxFirst, adjSet, build_adjacency, netPairs,
      find_nearest_free, inBounds, List.lookup]
  exact C2_seed_grow_complete_distinct _ _ _ _ _ (by decide) (by decide) _ _
    h1 h2
